import Mathlib

/-!
Verification development for the faster-parser repository: a shallow
embedding of the tokenless field-extraction engine (byte-scan primitives,
numeric micro-parsers, per-message-type field walkers and the dispatcher)
together with theorems settling the specification claims.

Modelling conventions:
* a byte buffer is a `List Char` (the wire format is ASCII); a pointer into
  the buffer is a position `ℕ`; the C++ null pointer result of `find_char`
  is `Option.none`;
* `uint64_t` is `ℕ` with an explicit `% 2 ^ 64` applied at every arithmetic
  step that the C++ performs on a `uint64_t`;
* `double` is modelled exactly over `ℚ`: every floating-point operation of
  the source is mapped to the corresponding exact rational operation
  (IEEE rounding is outside the embedding);
* fallible walkers return `Option`; the one unchecked raw dereference of
  the source (the boolean discriminator of `process_agg_trade`) is modelled
  with `List.get?`, whose `none` branch marks the out-of-bounds read.
-/

/-- Wrap-around modulus of `uint64_t` arithmetic. -/
def M64 : ℕ := 2 ^ 64

/-- Is the byte an ASCII decimal digit?  Mirrors the semantic content of the
branchless range check `((c - 48) | (57 - c)) & 0x80` of the source. -/
def is_digit (c : Char) : Bool := 48 ≤ c.toNat && c.toNat ≤ 57

/-- Numeric value of an ASCII digit byte (source: `c - 48`). -/
def digit_val (c : Char) : ℕ := c.toNat - 48

/-- core::scalar::all_digits: are all bytes of the span ASCII digits?  The
source checks 4 bytes at a time with a sign-bit trick; the batching does not
change the predicate. -/
def all_digits (l : List Char) : Bool := l.all is_digit

/-- core::scalar::parse_8_digits: positional decode of an 8-byte digit span.
Callers always pass a span of exactly 8 bytes; shorter spans pad with a
default digit, mirroring the unchecked reads only on in-contract inputs. -/
def parse_8_digits (l : List Char) : ℕ :=
  digit_val (l.getD 0 '0') * 10000000 +
  digit_val (l.getD 1 '0') * 1000000 +
  digit_val (l.getD 2 '0') * 100000 +
  digit_val (l.getD 3 '0') * 10000 +
  digit_val (l.getD 4 '0') * 1000 +
  digit_val (l.getD 5 '0') * 100 +
  digit_val (l.getD 6 '0') * 10 +
  digit_val (l.getD 7 '0') * 1

/-- Batched 8-digit loop of core::scalar::parse_uint64: while 8 bytes remain
(`ptr + 8 <= end`, here: the suffix starts with 8 bytes) and they are all
digits, fold them into the accumulator (u64 wrap-around). -/
def parse_uint64_batches : List Char → ℕ → List Char × ℕ
  | c0 :: c1 :: c2 :: c3 :: c4 :: c5 :: c6 :: c7 :: rest, acc =>
    if all_digits [c0, c1, c2, c3, c4, c5, c6, c7] then
      parse_uint64_batches rest
        ((acc * 100000000 + parse_8_digits [c0, c1, c2, c3, c4, c5, c6, c7]) % M64)
    else (c0 :: c1 :: c2 :: c3 :: c4 :: c5 :: c6 :: c7 :: rest, acc)
  | l, acc => (l, acc)

/-- Byte-at-a-time tail loop of core::scalar::parse_uint64: consume leading
digits, stopping at the first non-digit byte. -/
def parse_uint64_bytes : List Char → ℕ → ℕ
  | [], acc => acc
  | c :: rest, acc =>
    if is_digit c then parse_uint64_bytes rest ((acc * 10 + digit_val c) % M64)
    else acc

/-- core::scalar::parse_uint64: batched loop followed by the byte tail loop;
all accumulation is u64 wrap-around arithmetic. -/
def parse_uint64 (l : List Char) : ℕ :=
  let s := parse_uint64_batches l 0
  parse_uint64_bytes s.1 s.2

/-- Exact value of a `double` computed by the float parser: the rational
`num / 10 ^ exp`, carried as an explicit numerator and power-of-ten exponent
so that kernel evaluation never has to normalize a fraction.  Every
floating-point operation the source performs is mapped to the corresponding
exact operation on this representation (IEEE rounding is outside the
embedding); `dec.toRat` gives the represented rational. -/
structure dec where
  num : ℤ
  exp : ℕ
deriving DecidableEq

/-- The `static_cast<double>` of a u64 accumulator. -/
def dec.ofNat (n : ℕ) : dec := { num := (n : ℤ), exp := 0 }

/-- The division `fractional_part / powers_of_10[d]` of the source. -/
def dec.divPow10 (n d : ℕ) : dec := { num := (n : ℤ), exp := d }

/-- Exact addition of two represented doubles. -/
def dec.add (a b : dec) : dec :=
  { num := a.num * 10 ^ b.exp + b.num * 10 ^ a.exp, exp := a.exp + b.exp }

/-- Exact negation (the `negative ? -result : result` of the source). -/
def dec.neg (a : dec) : dec := { num := -a.num, exp := a.exp }

/-- The rational value represented by a `dec`. -/
def dec.toRat (a : dec) : ℚ := (a.num : ℚ) / 10 ^ a.exp

/-- Sign handling at the head of core::scalar::parse_float: returns the rest
of the buffer and the negative flag. -/
def strip_sign (l : List Char) : List Char × Bool :=
  match l with
  | '-' :: rest => (rest, true)
  | '+' :: rest => (rest, false)
  | _ => (l, false)

/-- Integer-part batch loop of core::scalar::parse_float.  `none` is the
abandon-the-fast-path result (`return standard_parse(str)` in the source),
taken when a further all-digit 8-byte window is available while
`integer_digits >= 10` already holds. -/
def int_batches : List Char → ℕ → ℕ → Option (List Char × ℕ × ℕ)
  | c0 :: c1 :: c2 :: c3 :: c4 :: c5 :: c6 :: c7 :: rest, acc, digits =>
    if all_digits [c0, c1, c2, c3, c4, c5, c6, c7] then
      if 10 ≤ digits then none
      else int_batches rest
        ((acc * 100000000 + parse_8_digits [c0, c1, c2, c3, c4, c5, c6, c7]) % M64) (digits + 8)
    else some (c0 :: c1 :: c2 :: c3 :: c4 :: c5 :: c6 :: c7 :: rest, acc, digits)
  | l, acc, digits => some (l, acc, digits)

/-- Integer-part byte loop of core::scalar::parse_float. -/
def int_bytes : List Char → ℕ → ℕ → List Char × ℕ × ℕ
  | [], acc, digits => ([], acc, digits)
  | c :: rest, acc, digits =>
    if is_digit c then int_bytes rest ((acc * 10 + digit_val c) % M64) (digits + 1)
    else (c :: rest, acc, digits)

/-- Fractional byte loop of core::scalar::parse_float: consume digits while
fewer than 18 have been taken. -/
def frac_bytes : List Char → ℕ → ℕ → ℕ × ℕ
  | [], acc, d => (acc, d)
  | c :: rest, acc, d =>
    if is_digit c = true ∧ d < 18 then frac_bytes rest ((acc * 10 + digit_val c) % M64) (d + 1)
    else (acc, d)

/-- Fractional phase of core::scalar::parse_float: if the first 8 bytes after
the dot are all digits take them as one batch (the source then merely skips
trailing zero bytes, which does not change the value); otherwise run the byte
loop.  Returns the fractional accumulator and the digit count. -/
def frac_phase (l : List Char) : ℕ × ℕ :=
  if 8 ≤ l.length ∧ all_digits (l.take 8) = true then (parse_8_digits (l.take 8), 8)
  else frac_bytes l 0 0

/-- Pure positional value of a digit span (specification-side helper used to
state what the accumulating loops compute). -/
def of_digits (l : List Char) : ℕ := l.foldl (fun a c => a * 10 + digit_val c) 0

/-- Modelled from the spec: `standard_parse` of the source wraps `strtod`,
the "standard locale-independent string-to-double conversion" used both as
the large-magnitude fallback and as the reference conversion of the
round-trip accuracy property.  `strtod` itself is libc code absent from the
repository; it is modelled as the exact rational value of the decimal
literal (optional sign, digit run, optional dot plus fractional digit run),
IEEE rounding of the final double being outside the embedding. -/
def standard_parse (l : List Char) : dec :=
  let s := strip_sign l
  let intDs := s.1.takeWhile is_digit
  let rest := s.1.dropWhile is_digit
  let fracDs := match rest with
    | '.' :: r => r.takeWhile is_digit
    | _ => []
  let mag := dec.add (dec.ofNat (of_digits intDs))
    (dec.divPow10 (of_digits fracDs) fracDs.length)
  if s.2 then dec.neg mag else mag

/-- core::scalar::parse_float: optional sign, batched-then-byte integer part
(with the large-magnitude fallback to `standard_parse` on the entire
original text), optional dot, batched-or-byte fractional part, final value
`integer_part + fractional_part / 10 ^ fractional_digits`, sign applied.
The `powers_of_10` table of the source holds exactly the powers used here. -/
def parse_float (l : List Char) : dec :=
  let s := strip_sign l
  match int_batches s.1 0 0 with
  | none => standard_parse l
  | some (rest, ip, dg) =>
    let t := int_bytes rest ip dg
    match t.1 with
    | '.' :: fr =>
      let fp := frac_phase fr
      let base := dec.ofNat t.2.1
      let r := if 0 < fp.2 then dec.add base (dec.divPow10 fp.1 fp.2) else base
      if s.2 then dec.neg r else r
    | _ =>
      let r := dec.ofNat t.2.1
      if s.2 then dec.neg r else r

/-- Does core::scalar::parse_float abandon its fast path for this input?
True exactly when the integer batch loop returns the fallback result. -/
def parse_float_fallback (l : List Char) : Bool :=
  (int_batches (strip_sign l).1 0 0).isNone

/-- The bytewise scan loop of scalar::find_char over the remaining suffix:
compare the head byte, else advance; `none` models the null-pointer "not
found" result.  (Also the first-occurrence yardstick both implementations
are measured against.) -/
def first_idx : List Char → Char → Option ℕ
  | [], _ => none
  | x :: xs, c => if x = c then some 0 else (first_idx xs c).map (fun j => j + 1)

/-- scalar::find_char: run the bytewise scan loop on the suffix of the
buffer starting at position `i` (the `ptr` of the source), reporting an
absolute position. -/
def find_char (l : List Char) (i : ℕ) (c : Char) : Option ℕ :=
  (first_idx (l.drop i) c).map (fun j => i + j)

/-- neon::find_char: 16-byte chunked scan.  A chunk whose low (resp. high)
8-byte lane contains a match is rescanned bytewise for the first match in
that lane; otherwise the scan advances 16 bytes; a final bytewise tail loop
handles fewer than 16 remaining bytes. -/
def neon_find_char (l : List Char) (c : Char) : Option ℕ :=
  if h : 16 ≤ l.length then
    if (l.take 8).contains c then first_idx (l.take 8) c
    else if ((l.drop 8).take 8).contains c then
      (first_idx ((l.drop 8).take 8) c).map (fun j => j + 8)
    else (neon_find_char (l.drop 16) c).map (fun j => j + 16)
  else first_idx l c
termination_by l.length
decreasing_by simp only [List.length_drop]; omega

/-- scalar::match_string / neon::match_string: byte-for-byte comparison of
the first `n` bytes (the dispatcher guarantees at least `n` bytes). -/
def match_string (l pat : List Char) (n : ℕ) : Bool :=
  decide (l.take n = pat.take n)

/-- The value span between two positions, `std::string_view(value_start, ptr)`
of the source. -/
def subspan (l : List Char) (a b : ℕ) : List Char := (l.drop a).take (b - a)

/-- types::level_data_t. -/
structure level_data_t where
  price : dec
  volume : dec
  sequence : ℕ
deriving DecidableEq

/-- types::book_ticker_t; the reception time is an abstract tag `ℕ`. -/
structure book_ticker_t where
  time : ℕ
  symbol : List Char
  exchange_timestamp : ℕ
  bid : level_data_t
  ask : level_data_t
deriving DecidableEq

/-- types::trade_t (aggregated trade). -/
structure trade_t where
  time : ℕ
  symbol : List Char
  event_time : ℕ
  agg_trade_id : ℕ
  price : dec
  quantity : dec
  first_trade_id : ℕ
  last_trade_id : ℕ
  trade_time : ℕ
  is_buyer_maker : Bool
deriving DecidableEq

/-- types::ticker_t (24h rolling statistics). -/
structure ticker_t where
  time : ℕ
  symbol : List Char
  event_time : ℕ
  price_change : dec
  price_change_percent : dec
  weighted_avg_price : dec
  last_price : dec
  last_quantity : dec
  open_price : dec
  high_price : dec
  low_price : dec
  total_traded_base_volume : dec
  total_traded_quote_volume : dec
  statistics_open_time : ℕ
  statistics_close_time : ℕ
  first_trade_id : ℕ
  last_trade_id : ℕ
  total_trades : ℕ
deriving DecidableEq

/-- Sequencing of one fallible walker step: the walk continues only when the
lookup produced a position (this is exactly the `if (!ptr) return false;`
early-exit pattern of every field walker). -/
def step {β : Type} (o : Option ℕ) (f : ℕ → Option β) : Option β :=
  match o with
  | none => none
  | some x => f x

/-- binance_future_parser_t::process_book_ticker: fixed-order walk of a
bookTicker message.  Field order and the constant key-skip offsets are
transcribed from the source; both price levels receive the single update id
as their sequence. -/
def process_book_ticker (now : ℕ) (buf : List Char) : Option book_ticker_t :=
  step (find_char buf 0 'u') fun pU =>
  step (find_char buf (pU + 3) ',') fun c1 =>
  let update_id := parse_uint64 (subspan buf (pU + 3) c1)
  step (find_char buf c1 's') fun pS =>
  step (find_char buf (pS + 4) '"') fun q1 =>
  let symbol := subspan buf (pS + 4) q1
  step (find_char buf (q1 + 1) 'b') fun pB =>
  step (find_char buf (pB + 4) '"') fun q2 =>
  let bid_price := parse_float (subspan buf (pB + 4) q2)
  step (find_char buf (q2 + 1) 'B') fun pV =>
  step (find_char buf (pV + 4) '"') fun q3 =>
  let bid_volume := parse_float (subspan buf (pV + 4) q3)
  step (find_char buf (q3 + 1) 'a') fun pA =>
  step (find_char buf (pA + 4) '"') fun q4 =>
  let ask_price := parse_float (subspan buf (pA + 4) q4)
  step (find_char buf (q4 + 1) 'A') fun pW =>
  step (find_char buf (pW + 4) '"') fun q5 =>
  let ask_volume := parse_float (subspan buf (pW + 4) q5)
  step (find_char buf (q5 + 1) 'T') fun pT =>
  step (find_char buf pT ',') fun cT =>
  step (find_char buf (cT + 1) 'E') fun pE =>
  step (find_char buf (pE + 3) '\x7d') fun e1 =>
  let ets := parse_uint64 (subspan buf (pE + 3) e1)
  some { time := now, symbol := symbol, exchange_timestamp := ets,
         bid := { price := bid_price, volume := bid_volume, sequence := update_id },
         ask := { price := ask_price, volume := ask_volume, sequence := update_id } }

/-- All steps of binance_future_parser_t::process_agg_trade before the
boolean discriminator; returns the record (discriminator still unset, the
default of the source struct) and the position `m-position + 3` at which the
source dereferences the discriminator byte. -/
def agg_fields (now : ℕ) (buf : List Char) : Option (trade_t × ℕ) :=
  step (find_char buf 0 'E') fun pE =>
  step (find_char buf (pE + 3) ',') fun c1 =>
  let event_time := parse_uint64 (subspan buf (pE + 3) c1)
  step (find_char buf c1 's') fun pS =>
  step (find_char buf (pS + 4) '"') fun q1 =>
  let symbol := subspan buf (pS + 4) q1
  step (find_char buf (q1 + 1) 'a') fun pA =>
  step (find_char buf (pA + 3) ',') fun c2 =>
  let agg_trade_id := parse_uint64 (subspan buf (pA + 3) c2)
  step (find_char buf c2 'p') fun pP =>
  step (find_char buf (pP + 4) '"') fun q2 =>
  let price := parse_float (subspan buf (pP + 4) q2)
  step (find_char buf (q2 + 1) 'q') fun pQ =>
  step (find_char buf (pQ + 4) '"') fun q3 =>
  let quantity := parse_float (subspan buf (pQ + 4) q3)
  step (find_char buf (q3 + 1) 'f') fun pF =>
  step (find_char buf (pF + 3) ',') fun c3 =>
  let first_trade_id := parse_uint64 (subspan buf (pF + 3) c3)
  step (find_char buf c3 'l') fun pL =>
  step (find_char buf (pL + 3) ',') fun c4 =>
  let last_trade_id := parse_uint64 (subspan buf (pL + 3) c4)
  step (find_char buf c4 'T') fun pT =>
  step (find_char buf (pT + 3) ',') fun c5 =>
  let trade_time := parse_uint64 (subspan buf (pT + 3) c5)
  step (find_char buf c5 'm') fun pM =>
  some ({ time := now, symbol := symbol, event_time := event_time,
          agg_trade_id := agg_trade_id, price := price, quantity := quantity,
          first_trade_id := first_trade_id, last_trade_id := last_trade_id,
          trade_time := trade_time, is_buyer_maker := false }, pM + 3)

/-- Outcome of the aggregated-trade walker: lookup failure, out-of-bounds
read of the boolean discriminator byte, or a decoded record. -/
inductive agg_result where
  | fail : agg_result
  | oob : agg_result
  | ok : trade_t → agg_result
deriving DecidableEq

/-- binance_future_parser_t::process_agg_trade.  The source reads the byte at
the position 3 past the found 'm' with no bounds check
(`trade.is_buyer_maker = (*ptr == 't');`); the total embedding reads it
through `List.get?` and reports `oob` when the position is outside the
buffer. -/
def process_agg_trade (now : ℕ) (buf : List Char) : agg_result :=
  match agg_fields now buf with
  | none => agg_result.fail
  | some (t, p) =>
    match buf.get? p with
    | none => agg_result.oob
    | some c => agg_result.ok { t with is_buyer_maker := c == 't' }

/-- One locate/skip/decode step of the 24hrTicker field walk: find the key
character, skip the fixed number of bytes past it, find the terminating
delimiter; `advance` tells whether the next search starts one byte past the
terminator (quoted values: the `ptr++` of the source; also the final field,
whose walker returns the position one past the closing brace). -/
structure field_step where
  key : Char
  skip : ℕ
  term : Char
  advance : Bool
deriving DecidableEq

/-- The locate/skip/extract loop of binance_future_parser_t::parse_single_ticker,
one iteration per field in wire order: find the key, skip past the
`"key":`/`"key":"` punctuation, find the terminator, record the value span,
continue after it.  Any failed lookup aborts with `none` exactly as the
`if (!ptr) return nullptr;` of the source. -/
def run_fields (buf : List Char) : List field_step → ℕ → Option (List (List Char) × ℕ)
  | [], p => some ([], p)
  | fs :: rest, p =>
    step (find_char buf p fs.key) fun k =>
    step (find_char buf (k + fs.skip) fs.term) fun e =>
    (run_fields buf rest (if fs.advance then e + 1 else e)).map fun r =>
      (subspan buf (k + fs.skip) e :: r.1, r.2)

/-- The fixed field table of parse_single_ticker, transcribed from the
source in wire order: E s p P w c Q o h l v q O C F L n with their key-skip
constants and terminators ('}' for the final field, after which the walker
advances one byte so that the returned position is one past the brace). -/
def ticker_fields : List field_step :=
  [{ key := 'E', skip := 3, term := ',', advance := false },
   { key := 's', skip := 4, term := '"', advance := true },
   { key := 'p', skip := 4, term := '"', advance := true },
   { key := 'P', skip := 4, term := '"', advance := true },
   { key := 'w', skip := 4, term := '"', advance := true },
   { key := 'c', skip := 4, term := '"', advance := true },
   { key := 'Q', skip := 4, term := '"', advance := true },
   { key := 'o', skip := 4, term := '"', advance := true },
   { key := 'h', skip := 4, term := '"', advance := true },
   { key := 'l', skip := 4, term := '"', advance := true },
   { key := 'v', skip := 4, term := '"', advance := true },
   { key := 'q', skip := 4, term := '"', advance := true },
   { key := 'O', skip := 3, term := ',', advance := false },
   { key := 'C', skip := 3, term := ',', advance := false },
   { key := 'F', skip := 3, term := ',', advance := false },
   { key := 'L', skip := 3, term := ',', advance := false },
   { key := 'n', skip := 3, term := '\x7d', advance := true }]

/-- Assembly of a ticker_t from the 17 extracted value spans, decoding each
with the numeric micro-parser the source applies to that field. -/
def mk_ticker (now : ℕ) (spans : List (List Char)) : Option ticker_t :=
  match spans with
  | [sE, sS, sP1, sP2, sW, sC, sQ, sO1, sH, sL, sV, sQ2, sOT, sCT, sF, sLT, sN] =>
    some { time := now, symbol := sS, event_time := parse_uint64 sE,
           price_change := parse_float sP1, price_change_percent := parse_float sP2,
           weighted_avg_price := parse_float sW, last_price := parse_float sC,
           last_quantity := parse_float sQ, open_price := parse_float sO1,
           high_price := parse_float sH, low_price := parse_float sL,
           total_traded_base_volume := parse_float sV,
           total_traded_quote_volume := parse_float sQ2,
           statistics_open_time := parse_uint64 sOT,
           statistics_close_time := parse_uint64 sCT,
           first_trade_id := parse_uint64 sF, last_trade_id := parse_uint64 sLT,
           total_trades := parse_uint64 sN }
  | _ => none

/-- binance_future_parser_t::parse_single_ticker: fixed-order walk of one
24hrTicker object starting at `p0` (the field table above); on success
returns the record and the position one past the object's closing brace. -/
def parse_single_ticker (now : ℕ) (buf : List Char) (p0 : ℕ) : Option (ticker_t × ℕ) :=
  match run_fields buf ticker_fields p0 with
  | some (spans, pf) => (mk_ticker now spans).map fun t => (t, pf)
  | none => none

/-- binance_future_parser_t::process_ticker: run the single-object walker
from the start of the buffer and emit its record on success. -/
def process_ticker (now : ℕ) (buf : List Char) : Option ticker_t :=
  match parse_single_ticker now buf 0 with
  | none => none
  | some (t, _) => some t

/-- Number of leading whitespace/comma bytes of a suffix, the body of the
skip loop at the head of each array iteration of
binance_future_parser_t::process_ticker_array. -/
def skip_count : List Char → ℕ
  | [] => 0
  | c :: rest =>
    if c = ' ' ∨ c = ',' ∨ c = '\n' ∨ c = '\r' ∨ c = '\t' then skip_count rest + 1
    else 0

/-- Whitespace-and-comma skip loop of process_ticker_array: advance the
position past leading separators. -/
def skip_ws_commas (buf : List Char) (p : ℕ) : ℕ :=
  p + skip_count (buf.drop p)

/-- Element loop of binance_future_parser_t::process_ticker_array.  The C++
while loop terminates because the single-object walker always advances the
pointer; the embedding makes that measure explicit as a fuel argument (one
unit per iteration, more than `buf.length + 1` iterations being impossible
since every iteration advances the position).  Records already emitted
before a failing element are part of the result list even when the success
flag is false, mirroring the streaming callback emission of the source. -/
def ticker_array_loop (now : ℕ) (buf : List Char) : ℕ → ℕ → Bool × List ticker_t
  | 0, _ => (false, [])
  | fuel + 1, p =>
    if p < buf.length then
      let q := skip_ws_commas buf p
      if q < buf.length then
        if buf.getD q ' ' = ']' then (true, [])
        else if buf.getD q ' ' = '\x7b' then
          match parse_single_ticker now buf q with
          | none => (false, [])
          | some (t, q2) =>
            let r := ticker_array_loop now buf fuel q2
            (r.1, t :: r.2)
        else (false, [])
      else (true, [])
    else (true, [])

/-- binance_future_parser_t::process_ticker_array: locate the opening
bracket, then run the element loop just past it. -/
def process_ticker_array (now : ℕ) (buf : List Char) : Bool × List ticker_t :=
  match find_char buf 0 '[' with
  | none => (false, [])
  | some i => ticker_array_loop now buf (buf.length + 1) (i + 1)

/-- One listener callback, tagged by which handler the engine invoked. -/
inductive event where
  | book : book_ticker_t → event
  | trade : trade_t → event
  | ticker : ticker_t → event
deriving DecidableEq

/-- binance_future_parser_t::parse, the dispatcher: minimum-length guard of
20 bytes, then the ordered 16-byte prefix comparisons, then the matching
walker.  The result is the success flag together with the ordered list of
listener callbacks; `none` marks the run that reaches the unchecked
out-of-bounds read of process_agg_trade (undefined behaviour in the C++). -/
def parse (now : ℕ) (buf : List Char) : Option (Bool × List event) :=
  if buf.length < 20 then some (false, [])
  else if match_string buf ("\x7b\"e\":\"bookTicker").data 16 then
    match process_book_ticker now buf with
    | some r => some (true, [event.book r])
    | none => some (false, [])
  else if match_string buf ("\x7b\"e\":\"aggTrade\",").data 16 then
    match process_agg_trade now buf with
    | agg_result.ok t => some (true, [event.trade t])
    | agg_result.fail => some (false, [])
    | agg_result.oob => none
  else if match_string buf ("\x7b\"e\":\"24hrTicker").data 16 then
    match process_ticker now buf with
    | some t => some (true, [event.ticker t])
    | none => some (false, [])
  else if match_string buf ("[\x7b\"e\":\"24hrTicker").data 16 then
    let r := process_ticker_array now buf
    some (r.1, r.2.map event.ticker)
  else some (false, [])

/-- Comma-join of array elements (statement-side helper describing the shape
of a well-formed ticker-array payload). -/
def join_comma : List (List Char) → List Char
  | [] => []
  | [e] => e
  | e :: es => e ++ ',' :: join_comma es

/-- A ticker-array buffer built from its element objects. -/
def mk_ticker_array (elems : List (List Char)) : List Char :=
  '[' :: (join_comma elems ++ [']'])

/-- A decimal literal of the round-trip accuracy property: optional sign
character, integer digit characters, optional dot plus fractional digit
characters. -/
def mk_decimal (sgn ds : List Char) (fs : Option (List Char)) : List Char :=
  sgn ++ ds ++ (match fs with | some f => '.' :: f | none => [])

/-- A concrete well-formed 24hrTicker element object (statement-side sample
payload for the array-semantics property). -/
def tk_elem : List Char :=
  ("\x7b\"e\":\"24hrTicker\",\"E\":1,\"s\":\"A\",\"p\":\"1\",\"P\":\"1\",\"w\":\"1\",\"c\":\"1\",\"Q\":\"1\",\"o\":\"1\",\"h\":\"1\",\"l\":\"1\",\"v\":\"1\",\"q\":\"1\",\"O\":0,\"C\":1,\"F\":0,\"L\":1,\"n\":2\x7d").data

/-- The record the single-object walker produces on tk_elem at reception
time 0. -/
def tk_rec : ticker_t :=
  { time := 0, symbol := ("A").data, event_time := 1,
    price_change := { num := 1, exp := 0 },
    price_change_percent := { num := 1, exp := 0 },
    weighted_avg_price := { num := 1, exp := 0 },
    last_price := { num := 1, exp := 0 },
    last_quantity := { num := 1, exp := 0 },
    open_price := { num := 1, exp := 0 },
    high_price := { num := 1, exp := 0 },
    low_price := { num := 1, exp := 0 },
    total_traded_base_volume := { num := 1, exp := 0 },
    total_traded_quote_volume := { num := 1, exp := 0 },
    statistics_open_time := 0, statistics_close_time := 1,
    first_trade_id := 0, last_trade_id := 1, total_trades := 2 }

theorem step_none {β : Type} (f : ℕ → Option β) : step none f = none := rfl

theorem step_some {β : Type} (x : ℕ) (f : ℕ → Option β) : step (some x) f = f x := rfl

theorem step_eq_some {β : Type} {o : Option ℕ} {f : ℕ → Option β} {b : β} :
    step o f = some b ↔ ∃ x, o = some x ∧ f x = some b := by
  cases o with
  | none => simp [step]
  | some x => simp [step]

theorem first_idx_eq_none_iff (l : List Char) (c : Char) :
    first_idx l c = none ↔ c ∉ l := by
  induction l with
  | nil => simp [first_idx]
  | cons x xs ih =>
    by_cases hx : x = c
    · subst hx; simp [first_idx]
    · simp only [first_idx, if_neg hx, Option.map_eq_none', List.mem_cons, ih]
      constructor
      · intro h hc
        rcases hc with hc | hc
        · exact hx hc.symm
        · exact h hc
      · intro h hc
        exact h (Or.inr hc)

theorem first_idx_spec {l : List Char} {c : Char} {j : ℕ} (h : first_idx l c = some j) :
    j < l.length ∧ l[j]? = some c ∧ ∀ k, k < j → l[k]? ≠ some c := by
  induction l generalizing j with
  | nil => simp [first_idx] at h
  | cons x xs ih =>
    by_cases hx : x = c
    · subst hx
      simp [first_idx] at h
      subst h
      simp
    · simp only [first_idx, if_neg hx, Option.map_eq_some'] at h
      obtain ⟨j0, hj0, hj⟩ := h
      subst hj
      obtain ⟨h1, h2, h3⟩ := ih hj0
      refine ⟨by simpa using h1, by simpa using h2, ?_⟩
      intro k hk
      cases k with
      | zero =>
        simp only [List.getElem?_cons_zero]
        intro hcon
        exact hx (by injection hcon)
      | succ k0 =>
        simp only [List.getElem?_cons_succ]
        exact h3 k0 (by omega)

theorem first_idx_append (a b : List Char) (c : Char) :
    first_idx (a ++ b) c =
      if c ∈ a then first_idx a c else (first_idx b c).map (fun j => j + a.length) := by
  induction a with
  | nil =>
    simp only [List.nil_append, List.not_mem_nil, if_false, List.length_nil]
    cases first_idx b c <;> simp
  | cons x xs ih =>
    rw [List.cons_append]
    by_cases hx : x = c
    · subst hx
      simp [first_idx]
    · have hmem : (c ∈ x :: xs) ↔ c ∈ xs := by
        simp only [List.mem_cons]
        constructor
        · intro h
          rcases h with h | h
          · exact absurd h.symm hx
          · exact h
        · exact Or.inr
      rw [first_idx, if_neg hx, ih]
      by_cases hc : c ∈ xs
      · rw [if_pos hc, if_pos (hmem.mpr hc), first_idx, if_neg hx]
      · rw [if_neg hc, if_neg (fun h => hc (hmem.mp h)), List.length_cons]
        cases first_idx b c <;> simp [Nat.add_assoc]

theorem find_char_eq_drop (l : List Char) (i : ℕ) (c : Char) :
    find_char l i c = (first_idx (l.drop i) c).map (fun j => i + j) := rfl

theorem find_char_some_facts {l : List Char} {i j : ℕ} {c : Char}
    (h : find_char l i c = some j) :
    i ≤ j ∧ j < l.length ∧ l[j]? = some c ∧ ∀ k, i ≤ k → k < j → l[k]? ≠ some c := by
  rw [find_char_eq_drop] at h
  simp only [Option.map_eq_some'] at h
  obtain ⟨j0, hj0, hj⟩ := h
  subst hj
  obtain ⟨h1, h2, h3⟩ := first_idx_spec hj0
  rw [List.length_drop] at h1
  refine ⟨by omega, by omega, ?_, ?_⟩
  · rw [List.getElem?_drop] at h2
    exact h2
  · intro k hk1 hk2
    have hmin := h3 (k - i) (by omega)
    rw [List.getElem?_drop] at hmin
    have hik : i + (k - i) = k := by omega
    rw [hik] at hmin
    exact hmin

theorem neon_find_char_eq_first_idx (l : List Char) (c : Char) :
    neon_find_char l c = first_idx l c := by
  induction l, c using neon_find_char.induct with
  | case1 l c h16 hcont =>
    have hmem : c ∈ l.take 8 := by simpa using hcont
    rw [neon_find_char]
    simp only [dif_pos h16, if_pos hcont]
    conv_rhs => rw [← List.take_append_drop 8 l]
    rw [first_idx_append, if_pos hmem]
  | case2 l c h16 hcont1 hcont2 =>
    have hmem1 : c ∉ l.take 8 := by simpa using hcont1
    have hmem2 : c ∈ (l.drop 8).take 8 := by simpa using hcont2
    have hlen8 : (l.take 8).length = 8 := by rw [List.length_take]; omega
    rw [neon_find_char]
    simp only [dif_pos h16, if_neg hcont1, if_pos hcont2]
    conv_rhs => rw [← List.take_append_drop 8 l]
    rw [first_idx_append, if_neg hmem1, hlen8]
    conv_rhs => rw [← List.take_append_drop 8 (l.drop 8)]
    rw [first_idx_append, if_pos hmem2]
  | case3 l c h16 hcont1 hcont2 ih =>
    have hmem1 : c ∉ l.take 8 := by simpa using hcont1
    have hmem2 : c ∉ (l.drop 8).take 8 := by simpa using hcont2
    have hlen8 : (l.take 8).length = 8 := by rw [List.length_take]; omega
    have hlen8b : ((l.drop 8).take 8).length = 8 := by
      rw [List.length_take, List.length_drop]; omega
    rw [neon_find_char]
    simp only [dif_pos h16, if_neg hcont1, if_neg hcont2, ih]
    conv_rhs => rw [← List.take_append_drop 8 l]
    rw [first_idx_append, if_neg hmem1, hlen8]
    conv_rhs => rw [← List.take_append_drop 8 (l.drop 8)]
    rw [first_idx_append, if_neg hmem2, hlen8b, List.drop_drop]
    cases first_idx (l.drop (8 + 8)) c <;> simp [Nat.add_assoc]
  | case4 l c h16 =>
    rw [neon_find_char]
    simp only [dif_neg h16]

/-- C6: for every buffer span and every target byte, `find_char` returns the
position of the first (least-offset) occurrence of the target within the
span, and returns none (never an out-of-bounds position) when the target
does not occur; the scalar implementation and the NEON 16-byte-chunked
implementation agree on every input. -/
theorem C6_find_char_first_occurrence :
    ∀ (l : List Char) (c : Char),
      neon_find_char l c = find_char l 0 c ∧
      (find_char l 0 c = none ↔ c ∉ l) ∧
      ∀ j, find_char l 0 c = some j →
        j < l.length ∧ l[j]? = some c ∧ ∀ k, k < j → l[k]? ≠ some c := by
  intro l c
  have hdrop0 : l.drop 0 = l := List.drop_zero l
  have h0 : find_char l 0 c = first_idx l c := by
    rw [find_char_eq_drop, hdrop0]
    cases first_idx l c <;> simp
  refine ⟨by rw [h0, neon_find_char_eq_first_idx], by rw [h0, first_idx_eq_none_iff], ?_⟩
  intro j hj
  obtain ⟨-, h2, h3, h4⟩ := find_char_some_facts hj
  exact ⟨h2, h3, fun k hk => h4 k (Nat.zero_le k) hk⟩

/-- Witness for C6 at a concrete buffer: the span "xayca" with target 'a'
has its first occurrence reported at offset 1 with all earlier offsets
mismatching, and target 'z' is reported absent. -/
theorem C6_witness :
    (1 < (("xayca").data).length ∧ (("xayca").data)[1]? = some 'a' ∧
      ∀ k, k < 1 → (("xayca").data)[k]? ≠ some 'a') ∧
    'z' ∉ ("xayca").data := by
  constructor
  · exact (C6_find_char_first_occurrence (("xayca").data) 'a').2.2 1 (by decide)
  · exact ((C6_find_char_first_occurrence (("xayca").data) 'z').2.1).mp (by decide)

theorem foldl_pure_congr (l : List Char) :
    ∀ {a b : ℕ}, a ≡ b [MOD M64] →
      List.foldl (fun a c => a * 10 + digit_val c) a l ≡
      List.foldl (fun a c => a * 10 + digit_val c) b l [MOD M64] := by
  induction l with
  | nil => intro a b h; simpa using h
  | cons c cs ih =>
    intro a b h
    simp only [List.foldl_cons]
    exact ih ((h.mul_right 10).add_right (digit_val c))

theorem foldl_mod_congr (l : List Char) :
    ∀ (a : ℕ),
      List.foldl (fun a c => (a * 10 + digit_val c) % M64) a l ≡
      List.foldl (fun a c => a * 10 + digit_val c) a l [MOD M64] := by
  induction l with
  | nil => intro a; rfl
  | cons c cs ih =>
    intro a
    simp only [List.foldl_cons]
    exact ((ih _).trans (foldl_pure_congr cs (Nat.mod_modEq _ _)))

theorem parse_uint64_bytes_eq_foldl (l : List Char) :
    ∀ (acc : ℕ), all_digits l = true →
      parse_uint64_bytes l acc =
        List.foldl (fun a c => (a * 10 + digit_val c) % M64) acc l := by
  induction l with
  | nil => intro acc _; rfl
  | cons c cs ih =>
    intro acc h
    simp only [all_digits, List.all_cons, Bool.and_eq_true] at h
    simp only [parse_uint64_bytes, if_pos h.1, List.foldl_cons]
    exact ih _ (by simp [all_digits, h.2])

theorem parse_uint64_bytes_lt (l : List Char) :
    ∀ (acc : ℕ), acc < M64 → parse_uint64_bytes l acc < M64 := by
  induction l with
  | nil => intro acc h; exact h
  | cons c cs ih =>
    intro acc h
    rw [parse_uint64_bytes]
    by_cases hd : is_digit c
    · rw [if_pos hd]
      exact ih _ (Nat.mod_lt _ (by norm_num [M64]))
    · rw [if_neg hd]
      exact h

theorem foldl_eight (a b c d e f g h : Char) (acc : ℕ) :
    List.foldl (fun x y => x * 10 + digit_val y) acc [a, b, c, d, e, f, g, h] =
      acc * 100000000 + parse_8_digits [a, b, c, d, e, f, g, h] := by
  simp only [List.foldl_cons, List.foldl_nil, parse_8_digits, List.getD_cons_zero,
    List.getD_cons_succ]
  ring

theorem parse_uint64_run :
    ∀ (l : List Char) (acc : ℕ), all_digits l = true →
      parse_uint64_bytes (parse_uint64_batches l acc).1 (parse_uint64_batches l acc).2 ≡
        List.foldl (fun a c => a * 10 + digit_val c) acc l [MOD M64] := by
  intro l acc
  induction l, acc using parse_uint64_batches.induct with
  | case1 c0 c1 c2 c3 c4 c5 c6 c7 rest acc hdig ih =>
    intro hall
    have hrest : all_digits rest = true := by
      simp only [all_digits, List.all_cons, Bool.and_eq_true] at hall
      exact hall.2.2.2.2.2.2.2.2
    rw [parse_uint64_batches, if_pos hdig]
    refine (ih hrest).trans ?_
    have h8 : List.foldl (fun a c => a * 10 + digit_val c) acc
        (c0 :: c1 :: c2 :: c3 :: c4 :: c5 :: c6 :: c7 :: rest) =
        List.foldl (fun a c => a * 10 + digit_val c)
          (acc * 100000000 + parse_8_digits [c0, c1, c2, c3, c4, c5, c6, c7]) rest := by
      rw [show (c0 :: c1 :: c2 :: c3 :: c4 :: c5 :: c6 :: c7 :: rest) =
        [c0, c1, c2, c3, c4, c5, c6, c7] ++ rest from rfl, List.foldl_append, foldl_eight]
    rw [h8]
    exact foldl_pure_congr rest (Nat.mod_modEq _ _)
  | case2 c0 c1 c2 c3 c4 c5 c6 c7 rest acc hdig =>
    intro hall
    exfalso
    apply hdig
    simp only [all_digits, List.all_cons, Bool.and_eq_true] at hall ⊢
    exact ⟨hall.1, hall.2.1, hall.2.2.1, hall.2.2.2.1, hall.2.2.2.2.1,
      hall.2.2.2.2.2.1, hall.2.2.2.2.2.2.1, hall.2.2.2.2.2.2.2.1, rfl⟩
  | case3 l acc h =>
    intro hall
    have hbat : parse_uint64_batches l acc = (l, acc) := by
      rw [parse_uint64_batches.eq_def]
      split
      · rename_i c0 c1 c2 c3 c4 c5 c6 c7 rest
        exact absurd rfl (h c0 c1 c2 c3 c4 c5 c6 c7 rest)
      · rfl
    rw [hbat]
    rw [parse_uint64_bytes_eq_foldl l acc hall]
    exact foldl_mod_congr l acc

theorem parse_uint64_batches_lt :
    ∀ (l : List Char) (acc : ℕ), acc < M64 → (parse_uint64_batches l acc).2 < M64 := by
  intro l acc
  induction l, acc using parse_uint64_batches.induct with
  | case1 c0 c1 c2 c3 c4 c5 c6 c7 rest acc hdig ih =>
    intro _
    rw [parse_uint64_batches, if_pos hdig]
    exact ih (Nat.mod_lt _ (by norm_num [M64]))
  | case2 c0 c1 c2 c3 c4 c5 c6 c7 rest acc hdig =>
    intro hacc
    rw [parse_uint64_batches, if_neg hdig]
    exact hacc
  | case3 l acc h =>
    intro hacc
    have hbat : parse_uint64_batches l acc = (l, acc) := by
      rw [parse_uint64_batches.eq_def]
      split
      · rename_i c0 c1 c2 c3 c4 c5 c6 c7 rest
        exact absurd rfl (h c0 c1 c2 c3 c4 c5 c6 c7 rest)
      · rfl
    rw [hbat]
    exact hacc

theorem eq_of_modEq_of_lt {a b n : ℕ} (h : a ≡ b [MOD n]) (ha : a < n) (hb : b < n) :
    a = b := by
  have := h
  unfold Nat.ModEq at this
  rw [Nat.mod_eq_of_lt ha, Nat.mod_eq_of_lt hb] at this
  exact this

/-- C8: on every non-empty all-digit span, parse_uint64 returns the denoted
natural number reduced modulo 2^64 (wrap-around on overflow), and the
batched 8-digit path composes with the byte-at-a-time path to the same
modular value as running the byte loop alone over the whole span. -/
theorem C8_parse_uint64_mod :
    ∀ (l : List Char), l ≠ [] → all_digits l = true →
      parse_uint64 l = of_digits l % M64 ∧ parse_uint64 l = parse_uint64_bytes l 0 := by
  intro l _ hall
  have hM : 0 < M64 := by norm_num [M64]
  have hrun : parse_uint64 l ≡ of_digits l [MOD M64] := parse_uint64_run l 0 hall
  have hlt : parse_uint64 l < M64 :=
    parse_uint64_bytes_lt _ _ (parse_uint64_batches_lt l 0 hM)
  constructor
  · have := hrun
    unfold Nat.ModEq at this
    rw [Nat.mod_eq_of_lt hlt] at this
    exact this
  · have hb : parse_uint64_bytes l 0 ≡ of_digits l [MOD M64] := by
      rw [parse_uint64_bytes_eq_foldl l 0 hall]
      exact foldl_mod_congr l 0
    exact eq_of_modEq_of_lt (hrun.trans hb.symm) hlt (parse_uint64_bytes_lt l 0 hM)

/-- Witness for C8 at a 20-digit span whose value 10^20 - 1 overflows u64:
both conclusions hold at that concrete input. -/
theorem C8_witness :
    parse_uint64 (("99999999999999999999").data) =
      of_digits (("99999999999999999999").data) % M64 ∧
    parse_uint64 (("99999999999999999999").data) =
      parse_uint64_bytes (("99999999999999999999").data) 0 :=
  C8_parse_uint64_mod (("99999999999999999999").data) (by decide) (by decide)

theorem exists_eight_cons {l : List Char} (h : 8 ≤ l.length) :
    ∃ c0 c1 c2 c3 c4 c5 c6 c7 rest,
      l = c0 :: c1 :: c2 :: c3 :: c4 :: c5 :: c6 :: c7 :: rest := by
  rcases l with _ | ⟨c0, l⟩; · simp at h
  rcases l with _ | ⟨c1, l⟩; · simp at h
  rcases l with _ | ⟨c2, l⟩; · simp at h
  rcases l with _ | ⟨c3, l⟩; · simp at h
  rcases l with _ | ⟨c4, l⟩; · simp at h
  rcases l with _ | ⟨c5, l⟩; · simp at h
  rcases l with _ | ⟨c6, l⟩; · simp at h
  rcases l with _ | ⟨c7, l⟩; · simp at h
  exact ⟨c0, c1, c2, c3, c4, c5, c6, c7, l, rfl⟩

theorem int_batches_short {l : List Char} (hlen : l.length < 8) (acc d : ℕ) :
    int_batches l acc d = some (l, acc, d) := by
  rw [int_batches.eq_def]
  split
  · rename_i c0 c1 c2 c3 c4 c5 c6 c7 rest
    simp at hlen
    exact absurd hlen (by omega)
  · rfl

theorem int_batches_stop {l : List Char} (hd : all_digits (l.take 8) = false)
    (acc d : ℕ) : int_batches l acc d = some (l, acc, d) := by
  by_cases hlen : l.length < 8
  · exact int_batches_short hlen acc d
  · obtain ⟨c0, c1, c2, c3, c4, c5, c6, c7, rest, rfl⟩ :=
      exists_eight_cons (by omega : 8 ≤ l.length)
    rw [int_batches, if_neg (by simpa using hd)]

theorem int_batches_no_window {l : List Char} (acc d : ℕ)
    (h : ¬(8 ≤ l.length ∧ all_digits (l.take 8) = true)) :
    int_batches l acc d = some (l, acc, d) := by
  rcases Nat.lt_or_ge l.length 8 with hlen | hlen
  · exact int_batches_short hlen acc d
  · cases hb : all_digits (l.take 8) with
    | false => exact int_batches_stop hb acc d
    | true => exact absurd ⟨hlen, hb⟩ h

theorem int_batches_none_hi (l : List Char) (acc d : ℕ) (h10 : 10 ≤ d) :
    int_batches l acc d = none ↔ (8 ≤ l.length ∧ all_digits (l.take 8) = true) := by
  by_cases h : 8 ≤ l.length ∧ all_digits (l.take 8) = true
  · obtain ⟨c0, c1, c2, c3, c4, c5, c6, c7, r, rfl⟩ := exists_eight_cons h.1
    rw [int_batches, if_pos (by simpa using h.2), if_pos h10]
    simp only [true_iff]
    exact h
  · rw [int_batches_no_window acc d h]
    simp only [reduceCtorEq, false_iff]
    exact h

theorem int_batches_none_mid (l : List Char) (acc d : ℕ) (hd : d < 10)
    (hd8 : 10 ≤ d + 8) :
    int_batches l acc d = none ↔
      (8 ≤ l.length ∧ all_digits (l.take 8) = true) ∧
      (8 ≤ (l.drop 8).length ∧ all_digits ((l.drop 8).take 8) = true) := by
  by_cases h : 8 ≤ l.length ∧ all_digits (l.take 8) = true
  · obtain ⟨c0, c1, c2, c3, c4, c5, c6, c7, r, rfl⟩ := exists_eight_cons h.1
    rw [int_batches, if_pos (by simpa using h.2), if_neg (by omega)]
    have hdrop : (c0 :: c1 :: c2 :: c3 :: c4 :: c5 :: c6 :: c7 :: r).drop 8 = r := rfl
    rw [hdrop, int_batches_none_hi r _ (d + 8) hd8]
    constructor
    · intro hr
      exact ⟨h, hr⟩
    · intro hr
      exact hr.2
  · rw [int_batches_no_window acc d h]
    simp only [reduceCtorEq, false_iff]
    intro hcon
    exact h hcon.1

theorem int_batches_none_lo (l : List Char) (acc d : ℕ) (hd8 : d + 8 < 10) :
    int_batches l acc d = none ↔
      (8 ≤ l.length ∧ all_digits (l.take 8) = true) ∧
      (8 ≤ (l.drop 8).length ∧ all_digits ((l.drop 8).take 8) = true) ∧
      (8 ≤ (l.drop 16).length ∧ all_digits ((l.drop 16).take 8) = true) := by
  by_cases h : 8 ≤ l.length ∧ all_digits (l.take 8) = true
  · obtain ⟨c0, c1, c2, c3, c4, c5, c6, c7, r, rfl⟩ := exists_eight_cons h.1
    rw [int_batches, if_pos (by simpa using h.2), if_neg (by omega)]
    have hdrop : (c0 :: c1 :: c2 :: c3 :: c4 :: c5 :: c6 :: c7 :: r).drop 8 = r := rfl
    have hdrop16 : (c0 :: c1 :: c2 :: c3 :: c4 :: c5 :: c6 :: c7 :: r).drop 16 = r.drop 8 := by
      have : (16 : ℕ) = 8 + 8 := rfl
      rw [this, ← List.drop_drop, hdrop]
    rw [hdrop, hdrop16, int_batches_none_mid r _ (d + 8) (by omega) (by omega)]
    constructor
    · intro hr
      exact ⟨h, hr⟩
    · intro hr
      exact hr.2
  · rw [int_batches_no_window acc d h]
    simp only [reduceCtorEq, false_iff]
    intro hcon
    exact h hcon.1

theorem three_windows_iff_take24 (l : List Char) :
    ((8 ≤ l.length ∧ all_digits (l.take 8) = true) ∧
      (8 ≤ (l.drop 8).length ∧ all_digits ((l.drop 8).take 8) = true) ∧
      (8 ≤ (l.drop 16).length ∧ all_digits ((l.drop 16).take 8) = true)) ↔
    (24 ≤ l.length ∧ all_digits (l.take 24) = true) := by
  have hsplit : l.take 24 = l.take 8 ++ ((l.drop 8).take 8 ++ (l.drop 16).take 8) := by
    have h24 : (24 : ℕ) = 8 + 16 := rfl
    have h16 : (16 : ℕ) = 8 + 8 := rfl
    rw [h24, List.take_add, h16, List.take_add, List.drop_drop]
  have hlen1 : (l.drop 8).length = l.length - 8 := List.length_drop 8 l
  have hlen2 : (l.drop 16).length = l.length - 16 := List.length_drop 16 l
  constructor
  · intro ⟨⟨hl1, ha1⟩, ⟨hl2, ha2⟩, ⟨hl3, ha3⟩⟩
    refine ⟨by omega, ?_⟩
    rw [hsplit]
    simp only [all_digits, List.all_append] at ha1 ha2 ha3 ⊢
    rw [ha1, ha2, ha3]
    rfl
  · intro ⟨hl, ha⟩
    rw [hsplit] at ha
    simp only [all_digits, List.all_append, Bool.and_eq_true] at ha
    exact ⟨⟨by omega, ha.1⟩, ⟨by omega, ha.2.1⟩, ⟨by omega, ha.2.2⟩⟩

/-- C4 (amended): parse_float abandons the batched fast path and falls back
to the standard conversion of the entire original input exactly when the
first 24 bytes after the optional sign are all decimal digits (the guard
`integer_digits >= 10` fires when a third all-digit 8-byte batch is
available, i.e. after 16 accumulated digits) — not after 10 batches of 8
digits. -/
theorem C4_fallback_at_third_batch :
    (∀ l : List Char, parse_float_fallback l = true ↔
      24 ≤ (strip_sign l).1.length ∧ all_digits ((strip_sign l).1.take 24) = true) ∧
    (∀ l : List Char, parse_float_fallback l = true → parse_float l = standard_parse l) := by
  constructor
  · intro l
    rw [parse_float_fallback, Option.isNone_iff_eq_none,
      int_batches_none_lo _ 0 0 (by omega), three_windows_iff_take24]
  · intro l hf
    rw [parse_float_fallback, Option.isNone_iff_eq_none] at hf
    rw [parse_float]
    rw [hf]

/-- Counterexample to C4 as stated: the 24-digit input "111…1" has an
integer part of only 24 digits — far below 10 batches of 8 — yet
parse_float abandons the fast path for it. -/
theorem C4_counterexample :
    parse_float_fallback (("111111111111111111111111").data) = true ∧
    (("111111111111111111111111").data).length = 24 ∧
    all_digits (("111111111111111111111111").data) = true := by
  refine ⟨?_, by decide, by decide⟩
  decide

/-- Witness for C4 at the 24-digit input: the fallback condition holds and
the fallback result is the standard conversion of the entire text. -/
theorem C4_witness :
    (24 ≤ ((strip_sign (("111111111111111111111111").data)).1).length ∧
      all_digits (((strip_sign (("111111111111111111111111").data)).1).take 24) = true) ∧
    parse_float (("111111111111111111111111").data) =
      standard_parse (("111111111111111111111111").data) := by
  constructor
  · exact (C4_fallback_at_third_batch.1 (("111111111111111111111111").data)).mp (by decide)
  · exact C4_fallback_at_third_batch.2 (("111111111111111111111111").data) (by decide)

theorem digit_val_le_nine {c : Char} (h : is_digit c = true) : digit_val c ≤ 9 := by
  simp only [is_digit, Bool.and_eq_true, decide_eq_true_eq] at h
  simp only [digit_val]
  omega

theorem not_digit_dot : is_digit '.' = false := by decide

theorem foldl_pure_ge (cs : List Char) :
    ∀ (acc : ℕ), acc ≤ List.foldl (fun a c => a * 10 + digit_val c) acc cs := by
  induction cs with
  | nil => intro acc; exact Nat.le_refl acc
  | cons c cs ih =>
    intro acc
    simp only [List.foldl_cons]
    exact le_trans (by omega) (ih (acc * 10 + digit_val c))

theorem foldl_pure_lt (cs : List Char) :
    ∀ (acc : ℕ), all_digits cs = true →
      List.foldl (fun a c => a * 10 + digit_val c) acc cs < (acc + 1) * 10 ^ cs.length := by
  induction cs with
  | nil => intro acc _; simp
  | cons c cs ih =>
    intro acc h
    simp only [all_digits, List.all_cons, Bool.and_eq_true] at h
    have hd : digit_val c ≤ 9 := digit_val_le_nine h.1
    simp only [List.foldl_cons, List.length_cons]
    have step := ih (acc * 10 + digit_val c) (by simp [all_digits, h.2])
    have hgrow : (acc * 10 + digit_val c + 1) * 10 ^ cs.length ≤
        (acc + 1) * 10 ^ (cs.length + 1) := by
      rw [pow_succ]
      have h1 : acc * 10 + digit_val c + 1 ≤ (acc + 1) * 10 := by omega
      calc (acc * 10 + digit_val c + 1) * 10 ^ cs.length
          ≤ (acc + 1) * 10 * 10 ^ cs.length := Nat.mul_le_mul_right _ h1
        _ = (acc + 1) * (10 ^ cs.length * 10) := by ring
    omega

theorem foldl_mod_eq_pure (cs : List Char) :
    ∀ (acc : ℕ),
      List.foldl (fun a c => a * 10 + digit_val c) acc cs < M64 →
      List.foldl (fun a c => (a * 10 + digit_val c) % M64) acc cs =
        List.foldl (fun a c => a * 10 + digit_val c) acc cs := by
  induction cs with
  | nil => intro acc _; rfl
  | cons c cs ih =>
    intro acc hlt
    simp only [List.foldl_cons] at hlt ⊢
    have hstep : acc * 10 + digit_val c < M64 :=
      lt_of_le_of_lt (foldl_pure_ge cs (acc * 10 + digit_val c)) hlt
    rw [Nat.mod_eq_of_lt hstep]
    exact ih _ hlt

theorem int_bytes_digits (cs : List Char) :
    ∀ (rest : List Char) (acc d : ℕ), all_digits cs = true →
      (∀ c t, rest = c :: t → is_digit c = false) →
      int_bytes (cs ++ rest) acc d =
        (rest, List.foldl (fun a c => (a * 10 + digit_val c) % M64) acc cs, d + cs.length) := by
  induction cs with
  | nil =>
    intro rest acc d _ hrest
    cases rest with
    | nil => rfl
    | cons c t =>
      have hc : is_digit c = false := hrest c t rfl
      simp [int_bytes, hc]
  | cons c cs ih =>
    intro rest acc d hall hrest
    simp only [all_digits, List.all_cons, Bool.and_eq_true] at hall
    simp only [List.cons_append, int_bytes, if_pos hall.1, List.foldl_cons, List.length_cons,
      List.append_eq]
    rw [ih rest _ _ (by simp [all_digits, hall.2]) hrest]
    have hadd : d + 1 + cs.length = d + (cs.length + 1) := by omega
    rw [hadd]

theorem frac_bytes_digits (fs : List Char) :
    ∀ (acc d : ℕ), all_digits fs = true → d + fs.length ≤ 18 →
      frac_bytes fs acc d =
        (List.foldl (fun a c => (a * 10 + digit_val c) % M64) acc fs, d + fs.length) := by
  induction fs with
  | nil => intro acc d _ _; simp [frac_bytes]
  | cons c fs ih =>
    intro acc d hall hd
    simp only [all_digits, List.all_cons, Bool.and_eq_true] at hall
    simp only [List.length_cons] at hd
    have hcond : is_digit c = true ∧ d < 18 := ⟨hall.1, by omega⟩
    simp only [frac_bytes, if_pos hcond, List.length_cons]
    rw [ih _ _ (by simp [all_digits, hall.2]) (by omega)]
    have hadd : d + 1 + fs.length = d + (fs.length + 1) := by omega
    rw [hadd, List.foldl_cons]

theorem parse_8_digits_lt {c0 c1 c2 c3 c4 c5 c6 c7 : Char}
    (h : all_digits [c0, c1, c2, c3, c4, c5, c6, c7] = true) :
    parse_8_digits [c0, c1, c2, c3, c4, c5, c6, c7] < 100000000 := by
  simp only [all_digits, List.all_cons, List.all_nil, Bool.and_eq_true] at h
  have h0 := digit_val_le_nine h.1
  have h1 := digit_val_le_nine h.2.1
  have h2 := digit_val_le_nine h.2.2.1
  have h3 := digit_val_le_nine h.2.2.2.1
  have h4 := digit_val_le_nine h.2.2.2.2.1
  have h5 := digit_val_le_nine h.2.2.2.2.2.1
  have h6 := digit_val_le_nine h.2.2.2.2.2.2.1
  have h7 := digit_val_le_nine h.2.2.2.2.2.2.2.1
  simp only [parse_8_digits, List.getD_cons_zero, List.getD_cons_succ]
  omega

theorem no_window_of_stopper (cs rest : List Char) (hlen : cs.length < 8)
    (hrest : ∀ c t, rest = c :: t → is_digit c = false) :
    ¬(8 ≤ (cs ++ rest).length ∧ all_digits ((cs ++ rest).take 8) = true) := by
  intro ⟨hl, ha⟩
  rw [List.length_append] at hl
  cases hrest2 : rest with
  | nil => subst hrest2; simp at hl; omega
  | cons c t =>
    subst hrest2
    have hc : is_digit c = false := hrest c t rfl
    have htake : (cs ++ c :: t).take 8 = cs ++ (c :: t).take (8 - cs.length) := by
      rw [List.take_append_eq_append_take, List.take_of_length_le (by omega)]
    obtain ⟨k, hk⟩ : ∃ k, 8 - cs.length = k + 1 := ⟨7 - cs.length, by omega⟩
    rw [htake, hk, List.take_succ_cons] at ha
    simp only [all_digits, List.all_append, List.all_cons, Bool.and_eq_true] at ha
    rw [hc] at ha
    exact absurd ha.2.1 (by simp)

theorem int_phase (cs rest : List Char) (hcs : all_digits cs = true)
    (hlen : cs.length ≤ 10)
    (hrest : ∀ c t, rest = c :: t → is_digit c = false) :
    ∃ mid accm dm,
      int_batches (cs ++ rest) 0 0 = some (mid, accm, dm) ∧
      int_bytes mid accm dm =
        (rest, List.foldl (fun a c => a * 10 + digit_val c) 0 cs, cs.length) := by
  have hcs10 : List.foldl (fun a c => a * 10 + digit_val c) 0 cs < M64 := by
    have := foldl_pure_lt cs 0 hcs
    have hpow : (0 + 1) * 10 ^ cs.length ≤ 10 ^ 10 := by
      simpa using Nat.pow_le_pow_right (by norm_num) hlen
    have : (10 : ℕ) ^ 10 < M64 := by norm_num [M64]
    omega
  rcases Nat.lt_or_ge cs.length 8 with h8 | h8
  · refine ⟨cs ++ rest, 0, 0, int_batches_no_window 0 0 (no_window_of_stopper cs rest h8 hrest), ?_⟩
    rw [int_bytes_digits cs rest 0 0 hcs hrest, foldl_mod_eq_pure cs 0 hcs10]
    simp
  · obtain ⟨c0, c1, c2, c3, c4, c5, c6, c7, cs2, rfl⟩ := exists_eight_cons h8
    have hw : all_digits [c0, c1, c2, c3, c4, c5, c6, c7] = true := by
      simp only [all_digits, List.all_cons, Bool.and_eq_true] at hcs ⊢
      exact ⟨hcs.1, hcs.2.1, hcs.2.2.1, hcs.2.2.2.1, hcs.2.2.2.2.1, hcs.2.2.2.2.2.1,
        hcs.2.2.2.2.2.2.1, hcs.2.2.2.2.2.2.2.1, rfl⟩
    have hcs2 : all_digits cs2 = true := by
      simp only [all_digits, List.all_cons, Bool.and_eq_true] at hcs
      exact hcs.2.2.2.2.2.2.2.2
    have hlen2 : cs2.length ≤ 2 := by
      simp only [List.length_cons] at hlen
      omega
    have hp8 : parse_8_digits [c0, c1, c2, c3, c4, c5, c6, c7] < 100000000 :=
      parse_8_digits_lt hw
    have hmod : (0 * 100000000 + parse_8_digits [c0, c1, c2, c3, c4, c5, c6, c7]) % M64 =
        parse_8_digits [c0, c1, c2, c3, c4, c5, c6, c7] := by
      rw [Nat.zero_mul, Nat.zero_add]
      exact Nat.mod_eq_of_lt (by norm_num [M64] at *; omega)
    refine ⟨cs2 ++ rest, parse_8_digits [c0, c1, c2, c3, c4, c5, c6, c7], 0 + 8, ?_, ?_⟩
    · rw [show (c0 :: c1 :: c2 :: c3 :: c4 :: c5 :: c6 :: c7 :: cs2) ++ rest =
        c0 :: c1 :: c2 :: c3 :: c4 :: c5 :: c6 :: c7 :: (cs2 ++ rest) from rfl]
      rw [int_batches, if_pos hw, if_neg (by omega), hmod]
      exact int_batches_no_window _ _ (no_window_of_stopper cs2 rest (by omega) hrest)
    · rw [int_bytes_digits cs2 rest _ _ hcs2 hrest]
      have hfold : List.foldl (fun a c => a * 10 + digit_val c) 0
          (c0 :: c1 :: c2 :: c3 :: c4 :: c5 :: c6 :: c7 :: cs2) =
          List.foldl (fun a c => a * 10 + digit_val c)
            (parse_8_digits [c0, c1, c2, c3, c4, c5, c6, c7]) cs2 := by
        rw [show (c0 :: c1 :: c2 :: c3 :: c4 :: c5 :: c6 :: c7 :: cs2) =
          [c0, c1, c2, c3, c4, c5, c6, c7] ++ cs2 from rfl, List.foldl_append, foldl_eight]
        rw [Nat.zero_mul, Nat.zero_add]
      rw [foldl_mod_eq_pure cs2 _ (by rw [← hfold]; exact hcs10), hfold]
      simp only [List.length_cons]
      have : 0 + 8 + cs2.length = cs2.length + 1 + 1 + 1 + 1 + 1 + 1 + 1 + 1 := by omega
      rw [this]

theorem frac_phase_eval (fs : List Char) (hall : all_digits fs = true)
    (hlen : fs.length ≤ 8) :
    frac_phase fs = (List.foldl (fun a c => a * 10 + digit_val c) 0 fs, fs.length) := by
  have hval : List.foldl (fun a c => a * 10 + digit_val c) 0 fs < M64 := by
    have := foldl_pure_lt fs 0 hall
    have hpow : (0 + 1) * 10 ^ fs.length ≤ 10 ^ 8 := by
      simpa using Nat.pow_le_pow_right (by norm_num) hlen
    have : (10 : ℕ) ^ 8 < M64 := by norm_num [M64]
    omega
  rcases Nat.lt_or_ge fs.length 8 with h8 | h8
  · rw [frac_phase, if_neg (by omega)]
    rw [frac_bytes_digits fs 0 0 hall (by omega), foldl_mod_eq_pure fs 0 hval]
    simp
  · have hfe : fs.length = 8 := by omega
    have htake : fs.take 8 = fs := List.take_of_length_le (by omega)
    rw [frac_phase, if_pos ⟨by omega, by rw [htake]; exact hall⟩, htake]
    obtain ⟨c0, c1, c2, c3, c4, c5, c6, c7, rest, rfl⟩ := exists_eight_cons h8
    have hrest : rest = [] := by
      simp only [List.length_cons] at hfe
      exact List.eq_nil_of_length_eq_zero (by omega)
    subst hrest
    rw [foldl_eight c0 c1 c2 c3 c4 c5 c6 c7 0, Nat.zero_mul, Nat.zero_add]
    simp

theorem takeWhile_digits_append (cs rest : List Char) (hcs : all_digits cs = true)
    (hrest : ∀ c t, rest = c :: t → is_digit c = false) :
    (cs ++ rest).takeWhile is_digit = cs ∧ (cs ++ rest).dropWhile is_digit = rest := by
  induction cs with
  | nil =>
    cases hr : rest with
    | nil => simp
    | cons c t =>
      have hc : is_digit c = false := hrest c t hr
      subst hr
      constructor
      · simp [List.takeWhile, hc]
      · simp [List.dropWhile, hc]
  | cons c cs ih =>
    simp only [all_digits, List.all_cons, Bool.and_eq_true] at hcs
    obtain ⟨h1, h2⟩ := ih (by simp [all_digits, hcs.2])
    constructor
    · simp only [List.cons_append, List.takeWhile, hcs.1, List.append_eq]
      rw [h1]
    · simp only [List.cons_append, List.dropWhile, hcs.1, List.append_eq]
      rw [h2]

theorem strip_sign_minus (l : List Char) : strip_sign ('-' :: l) = (l, true) := rfl

theorem strip_sign_plus (l : List Char) : strip_sign ('+' :: l) = (l, false) := rfl

theorem strip_sign_digit {c : Char} {l : List Char} (hc : is_digit c = true) :
    strip_sign (c :: l) = (c :: l, false) := by
  have h1 : c ≠ '-' := by intro h; subst h; exact absurd hc (by decide)
  have h2 : c ≠ '+' := by intro h; subst h; exact absurd hc (by decide)
  rw [strip_sign.eq_def]
  split
  · rename_i rest heq
    injection heq with heq1 _
    exact absurd heq1 h1
  · rename_i rest heq
    injection heq with heq1 _
    exact absurd heq1 h2
  · rfl

theorem dec_add_zero_frac (v : ℕ) :
    dec.add (dec.ofNat v) (dec.divPow10 0 0) = dec.ofNat v := by
  simp [dec.add, dec.ofNat, dec.divPow10]

theorem parse_float_eval_nofrac (l ds : List Char) (neg : Bool)
    (hstrip : strip_sign l = (ds ++ [], neg))
    (hds : all_digits ds = true) (h10 : ds.length ≤ 10) :
    parse_float l =
      (if neg then dec.neg (dec.ofNat (of_digits ds)) else dec.ofNat (of_digits ds)) := by
  obtain ⟨mid, accm, dm, hb, hby⟩ := int_phase ds [] hds h10 (by intro c t h; simp at h)
  simp only [parse_float, hstrip, hb, hby, of_digits]

theorem parse_float_eval_frac (l ds frs : List Char) (neg : Bool)
    (hstrip : strip_sign l = (ds ++ '.' :: frs, neg))
    (hds : all_digits ds = true) (h10 : ds.length ≤ 10)
    (hfr : all_digits frs = true) (hf1 : 1 ≤ frs.length) (hf8 : frs.length ≤ 8) :
    parse_float l =
      (if neg then
        dec.neg (dec.add (dec.ofNat (of_digits ds))
          (dec.divPow10 (of_digits frs) frs.length))
      else
        dec.add (dec.ofNat (of_digits ds)) (dec.divPow10 (of_digits frs) frs.length)) := by
  obtain ⟨mid, accm, dm, hb, hby⟩ := int_phase ds ('.' :: frs) hds h10
    (by intro c t h; injection h with h1 _; rw [← h1]; decide)
  simp only [parse_float, hstrip, hb, hby, frac_phase_eval frs hfr hf8, of_digits,
    if_pos (by omega : 0 < frs.length)]

theorem standard_parse_eval_nofrac (l ds : List Char) (neg : Bool)
    (hstrip : strip_sign l = (ds ++ [], neg)) (hds : all_digits ds = true) :
    standard_parse l =
      (if neg then dec.neg (dec.ofNat (of_digits ds)) else dec.ofNat (of_digits ds)) := by
  obtain ⟨ht, hd⟩ := takeWhile_digits_append ds [] hds (by intro c t h; simp at h)
  simp only [standard_parse, hstrip, ht, hd]
  rw [show of_digits ([] : List Char) = 0 from rfl,
    show ([] : List Char).length = 0 from rfl, dec_add_zero_frac]

theorem standard_parse_eval_frac (l ds frs : List Char) (neg : Bool)
    (hstrip : strip_sign l = (ds ++ '.' :: frs, neg))
    (hds : all_digits ds = true) (hfr : all_digits frs = true) :
    standard_parse l =
      (if neg then
        dec.neg (dec.add (dec.ofNat (of_digits ds))
          (dec.divPow10 (of_digits frs) frs.length))
      else
        dec.add (dec.ofNat (of_digits ds)) (dec.divPow10 (of_digits frs) frs.length)) := by
  obtain ⟨ht, hd⟩ := takeWhile_digits_append ds ('.' :: frs) hds
    (by intro c t h; injection h with h1 _; rw [← h1]; decide)
  have hfr2 : frs.takeWhile is_digit = frs := by
    have := (takeWhile_digits_append frs [] hfr (by intro c t h; simp at h)).1
    rwa [List.append_nil] at this
  simp only [standard_parse, hstrip, ht, hd, hfr2]

/-- C3 (amended): for decimal strings of the form sign, 1–10 integer
digits, optional dot plus fractional digits, parse_float agrees with the
standard string-to-double conversion EXACTLY whenever the string has at
most 8 fractional digits (no representability hypothesis needed).  The
original claim extended a 1e-8 relative-error guarantee to up to 18
fractional digits; that part fails because the fast path truncates the
fraction after its first 8-digit batch (see the counterexample). -/
theorem C3_parse_float_exact_upto8 :
    ∀ (sgn ds : List Char) (fs : Option (List Char)),
      (sgn = [] ∨ sgn = ['-'] ∨ sgn = ['+']) →
      all_digits ds = true → 1 ≤ ds.length → ds.length ≤ 10 →
      (∀ f, fs = some f → all_digits f = true ∧ 1 ≤ f.length ∧ f.length ≤ 8) →
      parse_float (mk_decimal sgn ds fs) = standard_parse (mk_decimal sgn ds fs) := by
  intro sgn ds fs hsgn hds h1 h10 hfs
  obtain ⟨d0, ds', rfl⟩ : ∃ d0 ds', ds = d0 :: ds' := by
    cases ds with
    | nil => simp at h1
    | cons a b => exact ⟨a, b, rfl⟩
  have hd0 : is_digit d0 = true := by
    simp only [all_digits, List.all_cons, Bool.and_eq_true] at hds
    exact hds.1
  rcases fs with _ | f
  · have hmk : ∀ (s : List Char), mk_decimal s (d0 :: ds') none = s ++ ((d0 :: ds') ++ []) := by
      intro s
      simp [mk_decimal]
    rcases hsgn with rfl | rfl | rfl
    · have hstrip : strip_sign (mk_decimal [] (d0 :: ds') none) = ((d0 :: ds') ++ [], false) := by
        rw [hmk, List.nil_append]
        rw [show (d0 :: ds') ++ ([] : List Char) = d0 :: (ds' ++ []) from rfl]
        exact strip_sign_digit hd0
      rw [parse_float_eval_nofrac _ _ _ hstrip hds h10,
        standard_parse_eval_nofrac _ _ _ hstrip hds]
    · have hstrip : strip_sign (mk_decimal ['-'] (d0 :: ds') none) = ((d0 :: ds') ++ [], true) := by
        rw [hmk]
        exact strip_sign_minus _
      rw [parse_float_eval_nofrac _ _ _ hstrip hds h10,
        standard_parse_eval_nofrac _ _ _ hstrip hds]
    · have hstrip : strip_sign (mk_decimal ['+'] (d0 :: ds') none) = ((d0 :: ds') ++ [], false) := by
        rw [hmk]
        exact strip_sign_plus _
      rw [parse_float_eval_nofrac _ _ _ hstrip hds h10,
        standard_parse_eval_nofrac _ _ _ hstrip hds]
  · obtain ⟨hfa, hf1, hf8⟩ := hfs f rfl
    have hmk : ∀ (s : List Char),
        mk_decimal s (d0 :: ds') (some f) = s ++ ((d0 :: ds') ++ '.' :: f) := by
      intro s
      simp [mk_decimal]
    rcases hsgn with rfl | rfl | rfl
    · have hstrip : strip_sign (mk_decimal [] (d0 :: ds') (some f)) =
          ((d0 :: ds') ++ '.' :: f, false) := by
        rw [hmk, List.nil_append]
        rw [show (d0 :: ds') ++ '.' :: f = d0 :: (ds' ++ '.' :: f) from rfl]
        exact strip_sign_digit hd0
      rw [parse_float_eval_frac _ _ _ _ hstrip hds h10 hfa hf1 hf8,
        standard_parse_eval_frac _ _ _ _ hstrip hds hfa]
    · have hstrip : strip_sign (mk_decimal ['-'] (d0 :: ds') (some f)) =
          ((d0 :: ds') ++ '.' :: f, true) := by
        rw [hmk]
        exact strip_sign_minus _
      rw [parse_float_eval_frac _ _ _ _ hstrip hds h10 hfa hf1 hf8,
        standard_parse_eval_frac _ _ _ _ hstrip hds hfa]
    · have hstrip : strip_sign (mk_decimal ['+'] (d0 :: ds') (some f)) =
          ((d0 :: ds') ++ '.' :: f, false) := by
        rw [hmk]
        exact strip_sign_plus _
      rw [parse_float_eval_frac _ _ _ _ hstrip hds h10 hfa hf1 hf8,
        standard_parse_eval_frac _ _ _ _ hstrip hds hfa]

/-- Counterexample to C3 as stated: "0.001953125" (9 fractional digits,
within the claimed `\d{1,18}` tolerance window) denotes 1/512, which a
double represents exactly (its value times 2^9 is 1), yet parse_float
truncates it to 0.00195312 — a relative error of 2.56e-6, far above 1e-8. -/
theorem C3_counterexample :
    parse_float (("0.001953125").data) = { num := 195312, exp := 8 } ∧
    dec.toRat (standard_parse (("0.001953125").data)) * 2 ^ 9 = 1 ∧
    ¬(|dec.toRat (parse_float (("0.001953125").data)) -
        dec.toRat (standard_parse (("0.001953125").data))| ≤
      (1 / 10 ^ 8) * |dec.toRat (standard_parse (("0.001953125").data))|) := by
  have hp : parse_float (("0.001953125").data) = { num := 195312, exp := 8 } := by decide
  have hs : standard_parse (("0.001953125").data) = { num := 1953125, exp := 9 } := by decide
  refine ⟨hp, ?_, ?_⟩
  · rw [hs]
    norm_num [dec.toRat]
  · rw [hp, hs]
    norm_num [dec.toRat]
    rw [abs_of_pos (by norm_num), abs_of_pos (by norm_num)]
    norm_num

/-- Witness for C3 at the concrete string "12.25": parse_float and the
standard conversion coincide. -/
theorem C3_witness :
    parse_float (mk_decimal [] (("12").data) (some (("25").data))) =
      standard_parse (mk_decimal [] (("12").data) (some (("25").data))) :=
  C3_parse_float_exact_upto8 [] (("12").data) (some (("25").data))
    (Or.inl rfl) (by decide) (by decide) (by decide)
    (fun f hf => by injection hf with h; rw [← h]; exact ⟨by decide, by decide, by decide⟩)

/-- C10: whenever the fractional part starts with 8 digit bytes (the 8-digit
batch path), the parse_float result is determined by those first 8
fractional digits only — the zero-skip and any later nonzero digit
contribute nothing; in particular "0.123456789" parses to exactly the value
of "0.12345678". -/
theorem C10_frac_batch_truncates :
    (∀ (l body : List Char) (neg : Bool) (rest : List Char) (ip dg : ℕ)
        (rest2 : List Char) (ip2 dg2 : ℕ) (fr : List Char),
      strip_sign l = (body, neg) →
      int_batches body 0 0 = some (rest, ip, dg) →
      int_bytes rest ip dg = (rest2, ip2, dg2) →
      rest2 = '.' :: fr →
      8 ≤ fr.length → all_digits (fr.take 8) = true →
      parse_float l =
        (if neg then
          dec.neg (dec.add (dec.ofNat ip2) (dec.divPow10 (parse_8_digits (fr.take 8)) 8))
         else dec.add (dec.ofNat ip2) (dec.divPow10 (parse_8_digits (fr.take 8)) 8))) ∧
    parse_float (("0.123456789").data) = parse_float (("0.12345678").data) ∧
    parse_float (("0.123456789").data) = { num := 12345678, exp := 8 } := by
  refine ⟨?_, by decide, by decide⟩
  intro l body neg rest ip dg rest2 ip2 dg2 fr hstrip hbat hby hr2 h8 had
  subst hr2
  have hfp : frac_phase fr = (parse_8_digits (fr.take 8), 8) := by
    rw [frac_phase, if_pos ⟨h8, had⟩]
  simp only [parse_float, hstrip, hbat, hby, hfp,
    if_pos (by norm_num : (0 : ℕ) < 8)]

/-- Witness for C10 at "0.123456789": every hypothesis of the universal
part holds concretely and the conclusion evaluates as stated. -/
theorem C10_witness :
    parse_float (("0.123456789").data) =
      (if false then
        dec.neg (dec.add (dec.ofNat 0)
          (dec.divPow10 (parse_8_digits ((("123456789").data).take 8)) 8))
       else dec.add (dec.ofNat 0)
          (dec.divPow10 (parse_8_digits ((("123456789").data).take 8)) 8)) :=
  C10_frac_batch_truncates.1 (("0.123456789").data) (("0.123456789").data) false
    ((("0.123456789").data)) 0 0 ('.' :: ("123456789").data) 0 1 (("123456789").data)
    (by decide) (by decide) (by decide) rfl (by decide) (by decide)

/-- C1: the concrete bookTicker input parses successfully, invoking
on_book_ticker exactly once with symbol "A", bid price 1.0, bid volume 1.0,
ask price 1.1, ask volume 1.0, exchange timestamp 1 and both sequence
numbers equal to 1 (the trailing toRat equations spell out the numeric
values of the dec representations appearing in the record). -/
theorem C1_book_ticker_concrete :
    ∀ (now : ℕ),
      parse now (("\x7b\"e\":\"bookTicker\",\"u\":1,\"s\":\"A\",\"b\":\"1.0\",\"B\":\"1\",\"a\":\"1.1\",\"A\":\"1\",\"T\":1,\"E\":1\x7d").data) =
        some (true, [event.book
          { time := now, symbol := ("A").data, exchange_timestamp := 1,
            bid := { price := { num := 10, exp := 1 }, volume := { num := 1, exp := 0 },
                     sequence := 1 },
            ask := { price := { num := 11, exp := 1 }, volume := { num := 1, exp := 0 },
                     sequence := 1 } }]) ∧
      dec.toRat { num := 10, exp := 1 } = 1 ∧
      dec.toRat { num := 11, exp := 1 } = 11 / 10 ∧
      dec.toRat { num := 1, exp := 0 } = 1 := by
  intro now
  exact ⟨by rfl, by norm_num [dec.toRat], by norm_num [dec.toRat], by norm_num [dec.toRat]⟩

/-- C7: every book_ticker_t record the walker hands to on_book_ticker has
bid.sequence equal to ask.sequence — both are populated from the single
update-id field. -/
theorem C7_sequences_mirrored :
    ∀ (now : ℕ) (buf : List Char) (r : book_ticker_t),
      process_book_ticker now buf = some r → r.bid.sequence = r.ask.sequence := by
  intro now buf r h
  rw [process_book_ticker] at h
  simp only [step_eq_some] at h
  obtain ⟨pU, _, c1, _, pS, _, q1, _, pB, _, q2, _, pV, _, q3, _, pA, _, q4, _,
    pW, _, q5, _, pT, _, cT, _, pE, _, e1, _, hr⟩ := h
  injection hr with hr
  subst hr
  rfl

/-- Witness for C7 at the concrete bookTicker input of the test suite. -/
theorem C7_witness :
    ({ time := 0, symbol := ("A").data, exchange_timestamp := 1,
       bid := { price := { num := 10, exp := 1 }, volume := { num := 1, exp := 0 },
                sequence := 1 },
       ask := { price := { num := 11, exp := 1 }, volume := { num := 1, exp := 0 },
                sequence := 1 } } : book_ticker_t).bid.sequence =
    ({ time := 0, symbol := ("A").data, exchange_timestamp := 1,
       bid := { price := { num := 10, exp := 1 }, volume := { num := 1, exp := 0 },
                sequence := 1 },
       ask := { price := { num := 11, exp := 1 }, volume := { num := 1, exp := 0 },
                sequence := 1 } } : book_ticker_t).ask.sequence :=
  C7_sequences_mirrored 0
    (("\x7b\"e\":\"bookTicker\",\"u\":1,\"s\":\"A\",\"b\":\"1.0\",\"B\":\"1\",\"a\":\"1.1\",\"A\":\"1\",\"T\":1,\"E\":1\x7d").data)
    _ (by rfl)

/-- C9: an aggTrade message truncated right after its final quoted "m" key
passes the dispatcher's 20-byte length guard and prefix comparison, yet the
walker's unchecked read of the boolean discriminator byte at (position of
the found 'm') + 3 lands outside the input span: in the total embedding the
out-of-range branch is reached (`parse` returns `none`, the marker for the
out-of-bounds read). -/
theorem C9_agg_trade_oob_read :
    parse 0 (("\x7b\"e\":\"aggTrade\",\"E\":2,\"s\":\"B\",\"a\":2,\"p\":\"2.0\",\"q\":\"2\",\"f\":2,\"l\":2,\"T\":2,\"m\":").data) = none ∧
    20 ≤ (("\x7b\"e\":\"aggTrade\",\"E\":2,\"s\":\"B\",\"a\":2,\"p\":\"2.0\",\"q\":\"2\",\"f\":2,\"l\":2,\"T\":2,\"m\":").data).length ∧
    match_string (("\x7b\"e\":\"aggTrade\",\"E\":2,\"s\":\"B\",\"a\":2,\"p\":\"2.0\",\"q\":\"2\",\"f\":2,\"l\":2,\"T\":2,\"m\":").data)
      (("\x7b\"e\":\"aggTrade\",").data) 16 = true ∧
    process_agg_trade 0 (("\x7b\"e\":\"aggTrade\",\"E\":2,\"s\":\"B\",\"a\":2,\"p\":\"2.0\",\"q\":\"2\",\"f\":2,\"l\":2,\"T\":2,\"m\":").data) =
      agg_result.oob := by
  refine ⟨by decide, by decide, by decide, by decide⟩

/-- C5 (amended): every message shorter than 20 bytes is rejected with zero
records; and for every message NOT carrying the ticker-array prefix, a
failure return implies zero records were emitted.  The original claim also
covered the array form, where the streaming loop can emit a prefix of
records before a later element fails (see the counterexample); the spec's
error-handling section itself notes that exception. -/
theorem C5_reject_emits_nothing :
    (∀ (now : ℕ) (l : List Char), l.length < 20 → parse now l = some (false, [])) ∧
    (∀ (now : ℕ) (l : List Char) (evs : List event),
      match_string l (("[\x7b\"e\":\"24hrTicker").data) 16 = false →
      parse now l = some (false, evs) → evs = []) := by
  constructor
  · intro now l h
    simp only [parse, if_pos h]
  · intro now l evs hm h
    rw [parse] at h
    by_cases h20 : l.length < 20
    · rw [if_pos h20] at h
      injection h with h
      exact (Prod.mk.injEq _ _ _ _).mp h.symm |>.2
    · rw [if_neg h20] at h
      cases hb : match_string l (("\x7b\"e\":\"bookTicker").data) 16 with
      | true =>
        rw [hb, if_pos rfl] at h
        cases hpb : process_book_ticker now l with
        | none =>
          rw [hpb] at h
          injection h with h
          exact (Prod.mk.injEq _ _ _ _).mp h.symm |>.2
        | some r =>
          rw [hpb] at h
          injection h with h
          exact absurd ((Prod.mk.injEq _ _ _ _).mp h).1 (by simp)
      | false =>
        rw [hb] at h
        simp only [Bool.false_eq_true, if_false] at h
        cases ha : match_string l (("\x7b\"e\":\"aggTrade\",").data) 16 with
        | true =>
          rw [ha, if_pos rfl] at h
          cases hpa : process_agg_trade now l with
          | fail =>
            rw [hpa] at h
            injection h with h
            exact (Prod.mk.injEq _ _ _ _).mp h.symm |>.2
          | oob =>
            rw [hpa] at h
            exact absurd h (by simp)
          | ok t =>
            rw [hpa] at h
            injection h with h
            exact absurd ((Prod.mk.injEq _ _ _ _).mp h).1 (by simp)
        | false =>
          rw [ha] at h
          simp only [Bool.false_eq_true, if_false] at h
          cases ht : match_string l (("\x7b\"e\":\"24hrTicker").data) 16 with
          | true =>
            rw [ht, if_pos rfl] at h
            cases hpt : process_ticker now l with
            | none =>
              rw [hpt] at h
              injection h with h
              exact (Prod.mk.injEq _ _ _ _).mp h.symm |>.2
            | some t =>
              rw [hpt] at h
              injection h with h
              exact absurd ((Prod.mk.injEq _ _ _ _).mp h).1 (by simp)
          | false =>
            rw [ht] at h
            simp only [Bool.false_eq_true, if_false] at h
            rw [hm] at h
            simp only [Bool.false_eq_true, if_false] at h
            injection h with h
            exact (Prod.mk.injEq _ _ _ _).mp h.symm |>.2

set_option maxRecDepth 100000 in
/-- Counterexample to C5 as stated: a ticker-array message whose first
element is well-formed and whose second element is corrupt (bare brace at
end of input) makes the top-level parse return failure AFTER having emitted
one on_ticker record — a recognized-prefix message with a corrupted field
that fails with one record emitted, not zero. -/
theorem C5_counterexample :
    (parse 0 (("[\x7b\"e\":\"24hrTicker\",\"E\":1,\"s\":\"A\",\"p\":\"1\",\"P\":\"1\",\"w\":\"1\",\"c\":\"1\",\"Q\":\"1\",\"o\":\"1\",\"h\":\"1\",\"l\":\"1\",\"v\":\"1\",\"q\":\"1\",\"O\":0,\"C\":1,\"F\":0,\"L\":1,\"n\":2\x7d,\x7b").data)).map
      (fun r => (r.1, r.2.length)) = some (false, 1) := by
  decide

/-- Witness for C5: the 2-byte input "[]" is rejected with zero records by
the length guard, and the unrecognized-prefix message of spec scenario 5 is
rejected with zero records. -/
theorem C5_witness :
    parse 0 (("[]").data) = some (false, []) ∧ ([] : List event) = [] := by
  constructor
  · exact C5_reject_emits_nothing.1 0 (("[]").data) (by decide)
  · exact C5_reject_emits_nothing.2 0 (("\x7b\"e\":\"trade\",\"t\":123456\x7d").data) []
      (by decide) (by decide)

theorem fc_bounds {l : List Char} {i j : ℕ} {c : Char} (h : find_char l i c = some j) :
    i ≤ j ∧ j < l.length :=
  ⟨(find_char_some_facts h).1, (find_char_some_facts h).2.1⟩

theorem drop_concat (a b : List Char) : (a ++ b).drop a.length = b := List.drop_left a b

theorem getD_concat (a : List Char) (c : Char) (b : List Char) (x : Char) :
    (a ++ c :: b).getD a.length x = c := by
  simp only [List.getD, List.get?_eq_getElem?]
  rw [List.getElem?_append_right (le_refl a.length)]
  simp

theorem first_idx_mem {l : List Char} {c : Char} {j : ℕ} (h : first_idx l c = some j) :
    c ∈ l := by
  by_contra hmem
  rw [(first_idx_eq_none_iff l c).mpr hmem] at h
  exact Option.noConfusion h

theorem find_char_embed (pre l post : List Char) {i j : ℕ} {c : Char}
    (h : find_char l i c = some j) :
    find_char (pre ++ l ++ post) (pre.length + i) c = some (pre.length + j) := by
  obtain ⟨hij, hjl⟩ := fc_bounds h
  rw [find_char_eq_drop] at h ⊢
  simp only [Option.map_eq_some'] at h
  obtain ⟨j0, hj0, hj⟩ := h
  have hil : i ≤ l.length := by omega
  have hdrop : (pre ++ l ++ post).drop (pre.length + i) = l.drop i ++ post := by
    rw [List.append_assoc, ← List.drop_drop, drop_concat, List.drop_append_of_le_length hil]
  rw [hdrop, first_idx_append, if_pos (first_idx_mem hj0), hj0]
  simp only [Option.map_some']
  congr 1
  omega

theorem subspan_embed (pre l post : List Char) (a b : ℕ)
    (ha : a ≤ l.length) (hb : b ≤ l.length) :
    subspan (pre ++ l ++ post) (pre.length + a) (pre.length + b) = subspan l a b := by
  simp only [subspan]
  have hdrop : (pre ++ l ++ post).drop (pre.length + a) = l.drop a ++ post := by
    rw [List.append_assoc, ← List.drop_drop, drop_concat, List.drop_append_of_le_length ha]
  have hsub : pre.length + b - (pre.length + a) = b - a := by omega
  rw [hdrop, hsub, List.take_append_of_le_length (by rw [List.length_drop]; omega)]

theorem run_fields_embed (pre l post : List Char) :
    ∀ (fsteps : List field_step) (p0 : ℕ) (spans : List (List Char)) (pf : ℕ),
      run_fields l fsteps p0 = some (spans, pf) →
      run_fields (pre ++ l ++ post) fsteps (pre.length + p0) =
        some (spans, pre.length + pf) := by
  intro fsteps
  induction fsteps with
  | nil =>
    intro p0 spans pf h
    simp only [run_fields, Option.some.injEq, Prod.mk.injEq] at h ⊢
    exact ⟨h.1, by omega⟩
  | cons fs rest ih =>
    intro p0 spans pf h
    simp only [run_fields, step_eq_some, Option.map_eq_some'] at h
    obtain ⟨k, hk, e, he, ⟨spans2, pf2⟩, hrun, hpair⟩ := h
    obtain ⟨hsp, hpf⟩ := (Prod.mk.injEq _ _ _ _).mp hpair
    obtain ⟨hk1, hk2⟩ := fc_bounds hk
    obtain ⟨he1, he2⟩ := fc_bounds he
    have Hk := find_char_embed pre l post hk
    have He := find_char_embed pre l post he
    have Hs := subspan_embed pre l post (k + fs.skip) e (by omega) (by omega)
    have Hr : run_fields (pre ++ l ++ post) rest
        (pre.length + (if fs.advance then e + 1 else e)) = some (spans2, pre.length + pf2) :=
      ih _ _ _ hrun
    have Hif : (if fs.advance = true then pre.length + e + 1 else pre.length + e) =
        pre.length + (if fs.advance = true then e + 1 else e) := by
      cases fs.advance <;> simp <;> omega
    rw [← Nat.add_assoc] at He Hs
    rw [run_fields, Hk, step_some, He, step_some, Hif, Hr]
    simp only [Option.map_some', Option.some.injEq, Prod.mk.injEq]
    refine ⟨?_, by omega⟩
    rw [Hs]
    exact hsp

theorem parse_single_ticker_embed (now : ℕ) (pre l post : List Char) (t : ticker_t)
    (h : parse_single_ticker now l 0 = some (t, l.length)) :
    parse_single_ticker now (pre ++ l ++ post) pre.length =
      some (t, pre.length + l.length) := by
  rw [parse_single_ticker] at h
  cases hrf : run_fields l ticker_fields 0 with
  | none =>
    rw [hrf] at h
    exact absurd h (by simp)
  | some r =>
    obtain ⟨spans, pf⟩ := r
    rw [hrf] at h
    simp only [Option.map_eq_some'] at h
    obtain ⟨t0, hmk, hte⟩ := h
    obtain ⟨ht0, hpf⟩ := (Prod.mk.injEq _ _ _ _).mp hte
    subst ht0
    have He := run_fields_embed pre l post ticker_fields 0 spans pf hrf
    rw [Nat.add_zero] at He
    rw [parse_single_ticker, He]
    simp [hmk, hpf]

theorem skip_count_close (X : List Char) : skip_count (']' :: X) = 0 := by
  rw [skip_count, if_neg (by decide)]

theorem skip_count_open (X : List Char) : skip_count ('\x7b' :: X) = 0 := by
  rw [skip_count, if_neg (by decide)]

theorem skip_count_comma_open (X : List Char) : skip_count (',' :: '\x7b' :: X) = 1 := by
  rw [skip_count, if_pos (by decide), skip_count_open]

theorem skip_ws_commas_concat_close (pre X : List Char) (p : ℕ) (hp : p = pre.length) :
    skip_ws_commas (pre ++ ']' :: X) p = pre.length := by
  subst hp
  rw [skip_ws_commas, drop_concat, skip_count_close]
  omega

theorem skip_ws_commas_concat_open (pre X : List Char) (p : ℕ) (hp : p = pre.length) :
    skip_ws_commas (pre ++ '\x7b' :: X) p = pre.length := by
  subst hp
  rw [skip_ws_commas, drop_concat, skip_count_open]
  omega

theorem skip_ws_commas_concat_comma_open (pre X : List Char) (p : ℕ) (hp : p = pre.length) :
    skip_ws_commas (pre ++ ',' :: '\x7b' :: X) p = pre.length + 1 := by
  subst hp
  rw [skip_ws_commas, drop_concat, skip_count_comma_open]

theorem join_comma_cons_head (c : Char) (f' : List Char) (fs : List (List Char)) :
    ∃ Y, join_comma ((c :: f') :: fs) = c :: Y := by
  cases fs with
  | nil => exact ⟨f', rfl⟩
  | cons g gs => exact ⟨f' ++ ',' :: join_comma (g :: gs), rfl⟩

theorem ticker_loop_run (now : ℕ) :
    ∀ (elems : List (List Char)) (ress : List ticker_t),
      List.Forall₂ (fun e t => e.head? = some '\x7b' ∧
        parse_single_ticker now e 0 = some (t, e.length)) elems ress →
      ∀ (pre : List Char) (fuel p : ℕ),
        elems.length < fuel →
        p ≤ pre.length →
        skip_ws_commas (pre ++ join_comma elems ++ [']']) p = pre.length →
        ticker_array_loop now (pre ++ join_comma elems ++ [']']) fuel p = (true, ress) := by
  intro elems ress hf
  induction hf with
  | nil =>
    intro pre fuel p hfuel hple hskip
    obtain ⟨f2, rfl⟩ : ∃ f2, fuel = f2 + 1 := ⟨fuel - 1, by omega⟩
    simp only [join_comma, List.append_nil] at hskip ⊢
    rw [ticker_array_loop]
    have hplen : p < (pre ++ [']']).length := by
      simp only [List.length_append, List.length_cons, List.length_nil]
      omega
    rw [if_pos hplen]
    simp only [hskip]
    rw [if_pos (by simp only [List.length_append, List.length_cons, List.length_nil]; omega)]
    rw [getD_concat, if_pos rfl]
  | @cons e t elems2 ress2 hpair hrest ih =>
    intro pre fuel p hfuel hple hskip
    obtain ⟨f2, rfl⟩ : ∃ f2, fuel = f2 + 1 := ⟨fuel - 1, by omega⟩
    obtain ⟨hhead, hparse⟩ := hpair
    obtain ⟨e', rfl⟩ : ∃ e', e = '\x7b' :: e' := by
      cases e with
      | nil => simp at hhead
      | cons c e' =>
        simp only [List.head?_cons, Option.some.injEq] at hhead
        subst hhead
        exact ⟨e', rfl⟩
    cases elems2 with
    | nil =>
      cases hrest
      simp only [join_comma] at hskip ⊢
      rw [ticker_array_loop]
      have hplen : p < ((pre ++ '\x7b' :: e') ++ [']']).length := by
        simp only [List.length_append, List.length_cons]
        omega
      have hnorm : (pre ++ '\x7b' :: e') ++ [']'] = pre ++ '\x7b' :: (e' ++ [']']) := by
        simp
      rw [hnorm] at hskip hplen ⊢
      rw [if_pos hplen]
      simp only [hskip]
      rw [if_pos (by simp only [List.length_append, List.length_cons]; omega)]
      rw [getD_concat, if_neg (by decide), if_pos rfl]
      have HP := parse_single_ticker_embed now pre ('\x7b' :: e') [']'] t hparse
      rw [hnorm] at HP
      rw [HP]
      have HI := ih (pre ++ '\x7b' :: e') f2 (pre.length + ('\x7b' :: e').length)
        (by simp at hfuel ⊢; omega)
        (by simp only [List.length_append]; omega)
        (by
          have hb : (pre ++ '\x7b' :: e') ++ join_comma [] ++ [']'] =
              (pre ++ '\x7b' :: e') ++ ']' :: [] := by simp [join_comma]
          rw [hb]
          exact skip_ws_commas_concat_close _ _ _ (by simp only [List.length_append]))
      have hnorm2 : (pre ++ '\x7b' :: e') ++ join_comma [] ++ [']'] =
          pre ++ '\x7b' :: (e' ++ [']']) := by simp [join_comma]
      rw [hnorm2] at HI
      simp only [List.length_cons] at HI
      simp [HI]
    | cons f fs =>
      cases hrest with
      | cons hf hrest2 =>
      obtain ⟨f2h, hparsef⟩ := hf
      obtain ⟨f', rfl⟩ : ∃ f', f = '\x7b' :: f' := by
        cases f with
        | nil => simp at f2h
        | cons c fx =>
          simp only [List.head?_cons, Option.some.injEq] at f2h
          subst f2h
          exact ⟨fx, rfl⟩
      obtain ⟨Y, hY⟩ := join_comma_cons_head '\x7b' f' fs
      have hjoin : join_comma (('\x7b' :: e') :: ('\x7b' :: f') :: fs) =
          ('\x7b' :: e') ++ ',' :: join_comma (('\x7b' :: f') :: fs) := rfl
      rw [hjoin] at hskip ⊢
      rw [ticker_array_loop]
      have hnorm : (pre ++ (('\x7b' :: e') ++ ',' :: join_comma (('\x7b' :: f') :: fs))) ++ [']'] =
          pre ++ '\x7b' :: (e' ++ ',' :: (join_comma (('\x7b' :: f') :: fs) ++ [']'])) := by
        simp
      rw [hnorm] at hskip ⊢
      have hplen : p < (pre ++ '\x7b' :: (e' ++ ',' ::
          (join_comma (('\x7b' :: f') :: fs) ++ [']']))).length := by
        simp only [List.length_append, List.length_cons]
        omega
      rw [if_pos hplen]
      simp only [hskip]
      rw [if_pos (by simp only [List.length_append, List.length_cons]; omega)]
      rw [getD_concat, if_neg (by decide), if_pos rfl]
      have HP := parse_single_ticker_embed now pre ('\x7b' :: e')
        (',' :: (join_comma (('\x7b' :: f') :: fs) ++ [']'])) t hparse
      have hnormP : (pre ++ '\x7b' :: e') ++ ',' ::
          (join_comma (('\x7b' :: f') :: fs) ++ [']']) =
          pre ++ '\x7b' :: (e' ++ ',' :: (join_comma (('\x7b' :: f') :: fs) ++ [']'])) := by
        simp
      rw [hnormP] at HP
      rw [HP]
      have HI := ih ((pre ++ '\x7b' :: e') ++ [',']) f2 (pre.length + ('\x7b' :: e').length)
        (by simp at hfuel ⊢; omega)
        (by simp only [List.length_append, List.length_cons]; omega)
        (by
          have hb : (((pre ++ '\x7b' :: e') ++ [',']) ++
              join_comma (('\x7b' :: f') :: fs) ++ [']']) =
              (pre ++ '\x7b' :: e') ++ ',' :: '\x7b' :: (Y ++ [']']) := by
            simp [hY]
          rw [hb]
          rw [skip_ws_commas_concat_comma_open (pre ++ '\x7b' :: e') (Y ++ [']'])
            (pre.length + ('\x7b' :: e').length) (by simp only [List.length_append])]
          simp only [List.length_append, List.length_cons, List.length_nil])
      have hnormI : (((pre ++ '\x7b' :: e') ++ [',']) ++
          join_comma (('\x7b' :: f') :: fs) ++ [']']) =
          pre ++ '\x7b' :: (e' ++ ',' :: (join_comma (('\x7b' :: f') :: fs) ++ [']'])) := by
        simp
      rw [hnormI] at HI
      simp only [List.length_cons] at HI
      simp [HI]

theorem join_comma_length_lb (elems : List (List Char)) :
    elems.length ≤ (join_comma elems).length + 1 := by
  induction elems with
  | nil => simp [join_comma]
  | cons e es ih =>
    cases es with
    | nil => simp only [join_comma, List.length_cons, List.length_nil]; omega
    | cons f fs =>
      simp only [join_comma, List.length_cons, List.length_append] at ih ⊢
      omega

/-- C2, corrected at the empty array.  The array walker process_ticker_array
does decode "[]" to zero records with success, but the claimed whole-pipeline
success is wrong: the dispatcher's 20-byte minimum-length guard rejects the
2-byte message "[]" with failure and zero callbacks.  For every well-formed
ticker array that reaches the dispatcher's array branch (recognized 16-byte
prefix, at least 20 bytes, each element an object the single-object walker
decodes completely in isolation), parse reports success and emits exactly
one on_ticker callback per element, in input order, each record equal to the
walker's isolated result on that element. -/
theorem C2_array_semantics :
    (∀ now : ℕ, process_ticker_array now (("[]").data) = (true, [])) ∧
    (∀ now : ℕ, parse now (("[]").data) = some (false, [])) ∧
    (∀ (now : ℕ) (elems : List (List Char)) (ress : List ticker_t),
      (mk_ticker_array elems).take 16 = (("[\x7b\"e\":\"24hrTicke").data) →
      20 ≤ (mk_ticker_array elems).length →
      List.Forall₂ (fun e t => e.head? = some '\x7b' ∧
        parse_single_ticker now e 0 = some (t, e.length)) elems ress →
      parse now (mk_ticker_array elems) = some (true, ress.map event.ticker)) := by
  refine ⟨fun now => rfl, fun now => rfl, ?_⟩
  intro now elems ress hpre hlen hf
  have hskip0 : skip_ws_commas ((['['] ++ join_comma elems) ++ [']']) 1 = 1 := by
    cases hf with
    | nil =>
      simpa [join_comma] using skip_ws_commas_concat_close ['['] [] 1 rfl
    | @cons e t es ts hpair hrest =>
      obtain ⟨e', rfl⟩ : ∃ e', e = '\x7b' :: e' := by
        cases e with
        | nil => exact absurd hpair.1 (by simp)
        | cons c e' =>
          obtain ⟨hh, -⟩ := hpair
          simp only [List.head?_cons, Option.some.injEq] at hh
          subst hh
          exact ⟨e', rfl⟩
      obtain ⟨Y, hY⟩ := join_comma_cons_head '\x7b' e' es
      rw [hY]
      have hsh : (['['] ++ '\x7b' :: Y) ++ [']'] = ['['] ++ '\x7b' :: (Y ++ [']']) := by
        simp
      rw [hsh]
      simpa using skip_ws_commas_concat_open ['['] (Y ++ [']']) 1 rfl
  have hbufshape : (['['] ++ join_comma elems) ++ [']'] = mk_ticker_array elems := by
    simp [mk_ticker_array]
  have hfind : find_char (mk_ticker_array elems) 0 '[' = some 0 := by
    simp [mk_ticker_array, find_char, first_idx]
  have harr : process_ticker_array now (mk_ticker_array elems) = (true, ress) := by
    have hrun := ticker_loop_run now elems ress hf ['['] ((mk_ticker_array elems).length + 1) 1
      (by
        have hlb := join_comma_length_lb elems
        simp only [mk_ticker_array, List.length_cons, List.length_append, List.length_nil]
        omega)
      (by simp)
      (by simpa using hskip0)
    rw [hbufshape] at hrun
    rw [process_ticker_array, hfind]
    simpa using hrun
  rw [parse, if_neg (by omega)]
  have h1 : match_string (mk_ticker_array elems) (("\x7b\"e\":\"bookTicker").data) 16 = false := by
    simp only [match_string, hpre]
    decide
  have h2 : match_string (mk_ticker_array elems) (("\x7b\"e\":\"aggTrade\",").data) 16 = false := by
    simp only [match_string, hpre]
    decide
  have h3 : match_string (mk_ticker_array elems) (("\x7b\"e\":\"24hrTicker").data) 16 = false := by
    simp only [match_string, hpre]
    decide
  have h4 : match_string (mk_ticker_array elems) (("[\x7b\"e\":\"24hrTicker").data) 16 = true := by
    simp only [match_string, hpre]
    decide
  rw [h1]
  simp only [Bool.false_eq_true, if_false]
  rw [h2]
  simp only [Bool.false_eq_true, if_false]
  rw [h3]
  simp only [Bool.false_eq_true, if_false]
  rw [h4, if_pos rfl]
  simp only [harr]

/-- Counterexample to C2 as stated: the whole-pipeline parse of the array
input "[]" reports failure with zero callbacks — the dispatcher's 20-byte
minimum-length guard rejects it before the array walker is consulted — not
the claimed overall success. -/
theorem C2_counterexample :
    parse 0 (("[]").data) = some (false, []) ∧
    some ((false : Bool), ([] : List event)) ≠ some (true, []) :=
  ⟨rfl, by decide⟩

set_option maxRecDepth 1000000 in
/-- Witness for C2: a concrete two-element ticker array parses to success
with exactly the two records of the isolated single-object runs, in input
order. -/
theorem C2_witness :
    parse 0 (mk_ticker_array [tk_elem, tk_elem]) =
      some (true, ([tk_rec, tk_rec]).map event.ticker) :=
  C2_array_semantics.2.2 0 [tk_elem, tk_elem] [tk_rec, tk_rec]
    (by decide) (by decide)
    (List.Forall₂.cons ⟨by decide, by decide⟩
      (List.Forall₂.cons ⟨by decide, by decide⟩ List.Forall₂.nil))
